import Mathlib

/-!
# A verification of the TOON (Token-Oriented Object Notation) core

This development embeds the core of the `simple_toon` repository — a parser
and serializer for TOON, a line-oriented tabular encoding of uniform record
arrays — and proves the specification's testable properties about it.

The repository ships only its test suite and package interface; the
implementation modules (`parser.py`, `serializer.py`, `advanced.py`,
`schema.py`, `streaming.py`) are not part of the source tree.  Every
operation below is therefore modelled from the specification document
(grammar §6, scalar codec §4.1, flatten §4.2, framer §4.3, document
parser §4.4, schema engine §4.5, streaming writer §4.6), cross-checked
against the behaviour asserted by the shipped tests.  Each such definition
carries a doc comment starting `Modelled from the spec:`.

Modelling conventions:
* machine strings are Lean `String`s, processed internally as `List Char`;
* IEEE-754 floats are represented by their canonical decimal literal
  (the spec makes "shortest decimal that reparses to the same double" a
  bijection between emitted literals and doubles, so the literal is a
  faithful proxy for the value);
* recursions that are not structural use an explicit fuel argument with a
  proven-sufficient bound, so that all definitions evaluate by `decide`;
* fallible operations return `Except` with the error taxonomy of spec §7.
-/

namespace Toon

/-! ## Core character utilities -/

/-- Split a character list at every occurrence of `c` (the separators are
dropped).  Always returns a non-empty list of chunks; splitting the empty
list yields `[[]]`, matching Python's `"".split` shape used line-wise. -/
def splitOnC (c : Char) : List Char → List (List Char)
  | [] => [[]]
  | x :: xs =>
    match splitOnC c xs with
    | [] => if x = c then [[], []] else [[x]]
    | t :: ts => if x = c then [] :: t :: ts else (x :: t) :: ts

/-- Join chunks with a separator list between consecutive chunks. -/
def intercalateC (sep : List Char) : List (List Char) → List Char
  | [] => []
  | [x] => x
  | x :: y :: ys => x ++ sep ++ intercalateC sep (y :: ys)

theorem splitOnC_ne_nil (c : Char) (cs : List Char) : splitOnC c cs ≠ [] := by
  cases cs with
  | nil => simp [splitOnC]
  | cons x xs =>
    simp only [splitOnC]
    rcases splitOnC c xs with _ | ⟨t, ts⟩ <;> split <;> split <;> simp

theorem splitOnC_cons_ne (c x : Char) (xs : List Char) (hx : x ≠ c) :
    splitOnC c (x :: xs) =
      (x :: (splitOnC c xs).headD []) :: (splitOnC c xs).tail := by
  simp only [splitOnC]
  rcases h : splitOnC c xs with _ | ⟨t, ts⟩
  · exact absurd h (splitOnC_ne_nil c xs)
  · simp [hx]

theorem splitOnC_cons_eq (c : Char) (xs : List Char) :
    splitOnC c (c :: xs) = [] :: splitOnC c xs := by
  simp only [splitOnC]
  rcases h : splitOnC c xs with _ | ⟨t, ts⟩
  · exact absurd h (splitOnC_ne_nil c xs)
  · simp

/-- Splitting a string that starts with a separator-free chunk followed by a
separator peels off exactly that chunk. -/
theorem splitOnC_append (c : Char) (l rest : List Char) (hl : ∀ x ∈ l, x ≠ c) :
    splitOnC c (l ++ c :: rest) = l :: splitOnC c rest := by
  induction l with
  | nil => simpa using splitOnC_cons_eq c rest
  | cons x xs ih =>
    have hx : x ≠ c := hl x (by simp)
    have ih' := ih (fun y hy => hl y (by simp [hy]))
    rw [List.cons_append, splitOnC_cons_ne c x _ hx, ih']
    simp

/-- A separator-free string does not split. -/
theorem splitOnC_free (c : Char) (l : List Char) (hl : ∀ x ∈ l, x ≠ c) :
    splitOnC c l = [l] := by
  induction l with
  | nil => rfl
  | cons x xs ih =>
    have hx : x ≠ c := hl x (by simp)
    have ih' := ih (fun y hy => hl y (by simp [hy]))
    rw [splitOnC_cons_ne c x _ hx, ih']
    simp

/-- Splitting the concatenation of newline-terminated lines yields the lines
followed by one empty chunk. -/
theorem splitOnC_join_map (c : Char) (ls : List (List Char))
    (h : ∀ l ∈ ls, ∀ x ∈ l, x ≠ c) :
    splitOnC c (ls.map (· ++ [c])).flatten = ls ++ [[]] := by
  induction ls with
  | nil => rfl
  | cons l ls ih =>
    have h1 : ∀ x ∈ l, x ≠ c := h l (by simp)
    have h2 := ih (fun l' hl' => h l' (by simp [hl']))
    simp only [List.map_cons, List.flatten_cons, List.append_assoc,
      List.singleton_append]
    rw [splitOnC_append c l _ h1, h2]
    simp

theorem splitOnC_intercalate (c : Char) (ls : List (List Char))
    (hne : ls ≠ []) (h : ∀ l ∈ ls, ∀ x ∈ l, x ≠ c) :
    splitOnC c (intercalateC [c] ls) = ls := by
  induction ls with
  | nil => exact absurd rfl hne
  | cons l ls ih =>
    rcases ls with _ | ⟨m, ms⟩
    · exact splitOnC_free c l (h l (by simp))
    · have h1 : ∀ x ∈ l, x ≠ c := h l (by simp)
      have ih' := ih (by simp) (fun l' hl' => h l' (by simp [hl']))
      show splitOnC c (l ++ [c] ++ intercalateC [c] (m :: ms)) = _
      rw [List.append_assoc, List.singleton_append,
        splitOnC_append c l _ h1, ih']

/-! ## The document data model (spec §3)

`Value` is the tagged scalar-or-composite tree of spec §3.  Floats are
represented by their canonical decimal literal (see the header comment);
`obj` is an insertion-ordered association list, the image of a Python
`dict` (so well-formed objects have pairwise-distinct keys). -/

/-- Modelled from the spec: the `Value` tree of spec §3 (implementation
module missing from the source tree; only its tests ship). -/
inductive Value where
  | null : Value
  | bool (b : Bool) : Value
  | int (n : Int) : Value
  | float (lit : String) : Value
  | str (s : String) : Value
  | arr (elems : List Value) : Value
  | obj (entries : List (String × Value)) : Value
  deriving Repr

/- Number of nodes of a `Value` tree; used as a fuel bound for recursions
that descend into nested objects.  The mutual structural recursion keeps it
both executable and kernel-reducible. -/
mutual

/-- Node count of a `Value` tree (fuel bound for nested recursions). -/
def Value.nodes : Value → Nat
  | .null | .bool _ | .int _ | .float _ | .str _ => 1
  | .arr elems => 1 + nodesArr elems
  | .obj entries => 1 + nodesObj entries

def nodesArr : List Value → Nat
  | [] => 0
  | v :: rest => Value.nodes v + nodesArr rest

def nodesObj : List (String × Value) → Nat
  | [] => 0
  | p :: rest => Value.nodes p.2 + nodesObj rest

end

theorem nodes_pos (v : Value) : 0 < v.nodes := by
  cases v <;> simp [Value.nodes]

theorem nodesObj_mem_le {p : String × Value} {xs : List (String × Value)}
    (h : p ∈ xs) : p.2.nodes ≤ nodesObj xs := by
  induction xs with
  | nil => simp at h
  | cons x rest ih =>
    rcases List.mem_cons.mp h with h | h
    · subst h; simp [nodesObj]
    · have := ih h
      simp [nodesObj]
      omega

/-- Appending a trailing separator appends one empty chunk to the split. -/
theorem splitOnC_append_sep (c : Char) (cs : List Char) :
    splitOnC c (cs ++ [c]) = splitOnC c cs ++ [[]] := by
  induction cs with
  | nil => simp [splitOnC]
  | cons x xs ih =>
    by_cases hx : x = c
    · subst hx
      rw [List.cons_append, splitOnC_cons_eq, splitOnC_cons_eq, ih]
      simp
    · rw [List.cons_append, splitOnC_cons_ne c x _ hx,
        splitOnC_cons_ne c x _ hx, ih]
      rcases h : splitOnC c xs with _ | ⟨t, ts⟩
      · exact absurd h (splitOnC_ne_nil c xs)
      · simp

/-! ## Error taxonomy (spec §7) -/

/-- Modelled from the spec: parse-side error taxonomy of §7 (the missing
implementation raises `ToonParseError`; variants per the table in §7). -/
inductive PErr where
  | invalidHeader : PErr
  | rowCountMismatch : PErr
  | fieldCountMismatch : PErr
  | indentError : PErr
  | unterminatedString : PErr
  | duplicateArrayName : PErr
  | flattenConflict : PErr
  deriving DecidableEq, Repr

/-- Modelled from the spec: serialize-side errors (`ToonSerializeError`).
`unsupportedValue` covers values the tabular form cannot carry (arrays or
objects in a cell, primitives as top-level named entries). -/
inductive SErr where
  | nonUniformArray : SErr
  | unsupportedValue : SErr
  deriving DecidableEq, Repr

/-! ## Scalar codec (spec §4.1) -/

/-- ASCII decimal digit. -/
def isDigitCh (c : Char) : Bool := 48 ≤ c.toNat && c.toNat ≤ 57

def digitCh (d : Nat) : Char := Char.ofNat (48 + d)

def charVal (c : Char) : Nat := c.toNat - 48

/-- Parse a digit string (most significant first) as a natural number. -/
def parseNatL (cs : List Char) : Nat := cs.foldl (fun a c => 10 * a + charVal c) 0

/-- Decimal digits of `n`, least significant first, with fuel. -/
def toDigitsR : Nat → Nat → List Char
  | 0, _ => []
  | f + 1, n => if n = 0 then [] else digitCh (n % 10) :: toDigitsR f (n / 10)

/-- Canonical decimal notation of a natural number. -/
def natToChars (n : Nat) : List Char :=
  if n = 0 then ['0'] else (toDigitsR (n + 1) n).reverse

/-- Canonical decimal notation of an integer. -/
def intToChars (i : Int) : List Char :=
  if i < 0 then '-' :: natToChars i.natAbs else natToChars i.natAbs

/-- Read a (sign-prefixed) digit string as an integer. -/
def parseIntTok (cs : List Char) : Int :=
  match cs with
  | '-' :: ds => -(parseNatL ds : Int)
  | ds => (parseNatL ds : Int)

/-- Integer literal `-?[0-9]+` (spec §4.1). -/
def isIntLit (cs : List Char) : Bool :=
  match cs with
  | '-' :: ds => !ds.isEmpty && ds.all isDigitCh
  | ds => !ds.isEmpty && ds.all isDigitCh

def isExpTail (cs : List Char) : Bool :=
  match cs with
  | '+' :: ds => !ds.isEmpty && ds.all isDigitCh
  | '-' :: ds => !ds.isEmpty && ds.all isDigitCh
  | ds => !ds.isEmpty && ds.all isDigitCh

def isExpPart (cs : List Char) : Bool :=
  match cs with
  | 'e' :: r => isExpTail r
  | 'E' :: r => isExpTail r
  | _ => false

def floatBody (cs : List Char) : Bool :=
  let p := cs.span isDigitCh
  !p.1.isEmpty &&
    (match p.2 with
     | '.' :: r2 =>
       let q := r2.span isDigitCh
       !q.1.isEmpty && (q.2.isEmpty || isExpPart q.2)
     | r2 => isExpPart r2)

/-- Float literal: decimal digits with a mandatory point or exponent
(spec §4.1 parsing rule 2). -/
def isFloatLit (cs : List Char) : Bool :=
  match cs with
  | '-' :: r => floatBody r
  | r => floatBody r

/-- ASCII lowercase (the case-insensitive literal comparison of §4.1). -/
def lowerCh (c : Char) : Char :=
  if 65 ≤ c.toNat && c.toNat ≤ 90 then Char.ofNat (c.toNat + 32) else c

/-- Case-insensitive comparison against a lowercase pattern. -/
def lowerEqL (cs pat : List Char) : Bool := cs.map lowerCh = pat

def nullL : List Char := ['n', 'u', 'l', 'l']
def trueL : List Char := ['t', 'r', 'u', 'e']
def falseL : List Char := ['f', 'a', 'l', 's', 'e']

/-- Structural characters of §4.1, plus the quote character which the
bareword grammar of §6 also excludes. -/
def isStructuralCh (c : Char) : Bool :=
  c = ',' || c = ':' || c = '[' || c = ']' || c = '{' || c = '}' || c = '"'

/-- Control characters (covers newline, carriage return, tab). -/
def isCtlCh (c : Char) : Bool := c.toNat < 32

/-- Whitespace for row-token trimming. -/
def isWsCh (c : Char) : Bool := c = ' ' || c = '\t' || c = '\r' || c = '\n'

/-- Lexical ambiguity with a non-string scalar (spec §4.1, last bullet). -/
def isAmbiguousL (cs : List Char) : Bool :=
  lowerEqL cs nullL || lowerEqL cs trueL || lowerEqL cs falseL ||
    isIntLit cs || isFloatLit cs

/-- Modelled from the spec: emission quoting rule of §4.1 — a string is
emitted quoted unless it is non-empty, free of structural and control
characters, has no leading or trailing whitespace, and is not lexically
ambiguous with a non-string literal. -/
def needsQuotingL (cs : List Char) : Bool :=
  cs.isEmpty || cs.any (fun c => isStructuralCh c || isCtlCh c) ||
    (cs.head?.getD 'x' |> isWsCh) || (cs.getLast?.getD 'x' |> isWsCh) ||
    isAmbiguousL cs

/-- The escape set of §4.1: `\"`, `\\`, `\n`, `\r`, `\t`. -/
def escCh (c : Char) : List Char :=
  if c = '"' then ['\\', '"']
  else if c = '\\' then ['\\', '\\']
  else if c = '\n' then ['\\', 'n']
  else if c = '\r' then ['\\', 'r']
  else if c = '\t' then ['\\', 't']
  else [c]

def escapeL (cs : List Char) : List Char := cs.flatMap escCh

def quoteL (cs : List Char) : List Char := '"' :: escapeL cs ++ ['"']

/-- Modelled from the spec: scalar emission (§4.1).  Composites never reach
this function (the serializer rejects them first); they emit `[]`. -/
def emitScalarL : Value → List Char
  | .null => nullL
  | .bool true => trueL
  | .bool false => falseL
  | .int n => intToChars n
  | .float lit => lit.data
  | .str s => if needsQuotingL s.data then quoteL s.data else s.data
  | .arr _ => []
  | .obj _ => []

def unescSp (c : Char) : Char :=
  if c = 'n' then '\n' else if c = 'r' then '\r' else if c = 't' then '\t' else c

/-- Read a quoted-token body (the opening quote already consumed):
`none` on a missing closing quote, on a dangling backslash, or on trailing
junk after the closing quote.  Unknown escapes pass through verbatim
(modelled choice; the emitter never produces them). -/
def unquoteBody : List Char → Option (List Char)
  | [] => none
  | c :: rest =>
    if c = '"' then (if rest.isEmpty then some [] else none)
    else if c = '\\' then
      match rest with
      | [] => none
      | d :: rest2 =>
        (unquoteBody rest2).map (fun r =>
          (if d = '"' || d = '\\' || d = 'n' || d = 'r' || d = 't'
           then [unescSp d] else ['\\', d]) ++ r)
    else (unquoteBody rest).map (c :: ·)

/-- Modelled from the spec: row-position token classification (§4.1 parsing
rules): quoted string, else `null` / `true` / `false` (case-insensitive),
else integer, else float, else the raw bytes as a string. -/
def parseScalarTok (cs : List Char) : Except PErr Value :=
  if cs.head? = some '"' then
    match unquoteBody cs.tail with
    | some body => .ok (.str (String.mk body))
    | none => .error .unterminatedString
  else if lowerEqL cs nullL then .ok .null
  else if lowerEqL cs trueL then .ok (.bool true)
  else if lowerEqL cs falseL then .ok (.bool false)
  else if isIntLit cs then .ok (.int (parseIntTok cs))
  else if isFloatLit cs then .ok (.float (String.mk cs))
  else .ok (.str (String.mk cs))

/-- Trim surrounding whitespace (the row parse trims each token). -/
def trimL (cs : List Char) : List Char :=
  ((cs.dropWhile isWsCh).reverse.dropWhile isWsCh).reverse

/-! ### Digit-string inversion -/

theorem digitCh_val {d : Nat} (h : d < 10) : charVal (digitCh d) = d := by
  interval_cases d <;> decide

theorem digitCh_isDigit {d : Nat} (h : d < 10) : isDigitCh (digitCh d) = true := by
  interval_cases d <;> decide

theorem foldl_toDigitsR (f : Nat) : ∀ n a, n ≤ f →
    List.foldl (fun a c => 10 * a + charVal c) a (toDigitsR f n).reverse =
      a * 10 ^ (toDigitsR f n).length + n := by
  induction f with
  | zero =>
    intro n a h
    have : n = 0 := by omega
    subst this
    simp [toDigitsR]
  | succ f ih =>
    intro n a h
    by_cases hn : n = 0
    · subst hn; simp [toDigitsR]
    · have hd : n / 10 ≤ f := by
        have := Nat.div_lt_self (Nat.pos_of_ne_zero hn) (by norm_num : 1 < 10)
        omega
      simp only [toDigitsR, if_neg hn, List.reverse_cons, List.foldl_append,
        List.foldl_cons, List.foldl_nil, List.length_cons]
      rw [ih (n / 10) a hd, digitCh_val (Nat.mod_lt n (by norm_num))]
      have : 10 * (a * 10 ^ (toDigitsR f (n / 10)).length + n / 10) + n % 10 =
          a * (10 ^ (toDigitsR f (n / 10)).length * 10) +
            (10 * (n / 10) + n % 10) := by ring
      rw [this, Nat.div_add_mod, pow_succ]

theorem parseNatL_natToChars (n : Nat) : parseNatL (natToChars n) = n := by
  by_cases hn : n = 0
  · subst hn; decide
  · simp only [natToChars, if_neg hn, parseNatL]
    have := foldl_toDigitsR (n + 1) n 0 (by omega)
    simpa using this

theorem toDigitsR_digits (f : Nat) : ∀ n c, c ∈ toDigitsR f n → isDigitCh c = true := by
  induction f with
  | zero => intro n c h; simp [toDigitsR] at h
  | succ f ih =>
    intro n c h
    by_cases hn : n = 0
    · subst hn; simp [toDigitsR] at h
    · simp only [toDigitsR, if_neg hn, List.mem_cons] at h
      rcases h with h | h
      · subst h; exact digitCh_isDigit (Nat.mod_lt n (by norm_num))
      · exact ih _ c h

theorem natToChars_digits {n : Nat} {c : Char} (h : c ∈ natToChars n) :
    isDigitCh c = true := by
  by_cases hn : n = 0
  · subst hn; simp [natToChars] at h; subst h; decide
  · simp only [natToChars, if_neg hn, List.mem_reverse] at h
    exact toDigitsR_digits _ _ _ h

theorem natToChars_ne_nil (n : Nat) : natToChars n ≠ [] := by
  by_cases hn : n = 0
  · subst hn; decide
  · rcases hn' : n with _ | m
    · omega
    · simp [natToChars, hn, toDigitsR]

theorem isIntLit_of_digits {cs : List Char} (hne : cs ≠ [])
    (h : ∀ c ∈ cs, isDigitCh c = true) : isIntLit cs = true := by
  have hemp : cs.isEmpty = false := by
    cases cs with
    | nil => exact absurd rfl hne
    | cons a b => rfl
  unfold isIntLit
  split
  · have := h '-' (by simp)
    simp [isDigitCh] at this
  · simp only [hemp, Bool.not_false, Bool.true_and, List.all_eq_true]
    exact h

theorem isIntLit_natToChars (n : Nat) : isIntLit (natToChars n) = true :=
  isIntLit_of_digits (natToChars_ne_nil n) (fun _ hc => natToChars_digits hc)

theorem isIntLit_intToChars (i : Int) : isIntLit (intToChars i) = true := by
  by_cases hi : i < 0
  · simp only [intToChars, if_pos hi, isIntLit]
    have hne : ¬(natToChars i.natAbs).isEmpty = true := by
      rcases h : natToChars i.natAbs with _ | _
      · exact absurd h (natToChars_ne_nil _)
      · simp
    simp only [Bool.and_eq_true, Bool.not_eq_eq_eq_not, Bool.not_true,
      List.all_eq_true]
    constructor
    · simpa using hne
    · exact fun c hc => natToChars_digits hc
  · simp only [intToChars, if_neg hi]
    exact isIntLit_natToChars i.natAbs

theorem parseIntTok_intToChars (i : Int) : parseIntTok (intToChars i) = i := by
  by_cases hi : i < 0
  · simp only [intToChars, if_pos hi, parseIntTok, parseNatL_natToChars]
    omega
  · simp only [intToChars, if_neg hi]
    have hd : ∀ c ∈ natToChars i.natAbs, isDigitCh c = true :=
      fun _ hc => natToChars_digits hc
    rcases h : natToChars i.natAbs with _ | ⟨c, rest⟩
    · exact absurd h (natToChars_ne_nil _)
    · have hc : c ≠ '-' := by
        intro heq
        have := hd c (by rw [h]; simp)
        rw [heq] at this
        simp [isDigitCh] at this
      unfold parseIntTok
      split
      · rename_i ds heq
        exact absurd (by injection heq) hc
      · rw [← h, parseNatL_natToChars]
        omega

/-! ### Token classification facts -/

theorem span_all {α : Type} {p : α → Bool} {l : List α} (h : ∀ x ∈ l, p x = true) :
    l.span p = (l, []) := by
  induction l with
  | nil => rfl
  | cons a as ih =>
    have ha := h a (by simp)
    have ihh := ih (fun x hx => h x (by simp [hx]))
    simp only [List.span_eq_take_drop, Prod.mk.injEq] at ihh ⊢
    simp [List.takeWhile_cons, List.dropWhile_cons, ha, ihh.1, ihh.2]

theorem span_append {α : Type} {p : α → Bool} (l : List α) {x : α} (r : List α)
    (hl : ∀ c ∈ l, p c = true) (hx : p x = false) :
    (l ++ x :: r).span p = (l, x :: r) := by
  induction l with
  | nil => simp [List.span_eq_take_drop, List.takeWhile_cons,
      List.dropWhile_cons, hx]
  | cons a as ih =>
    have ha := hl a (by simp)
    have ihh := ih (fun c hc => hl c (by simp [hc]))
    simp only [List.span_eq_take_drop, Prod.mk.injEq] at ihh ⊢
    simp [List.takeWhile_cons, List.dropWhile_cons, ha, ihh.1, ihh.2]

theorem mem_span_left {α : Type} {p : α → Bool} {l : List α} {c : α}
    (h : c ∈ (l.span p).1) : p c = true := by
  rw [List.span_eq_take_drop] at h
  exact List.mem_takeWhile_imp h

theorem lowerCh_of_lt {c : Char} (h : c.toNat < 65) : lowerCh c = c := by
  unfold lowerCh
  have : (65 ≤ c.toNat && c.toNat ≤ 90) = false := by
    simp; omega
  simp [this]

theorem lowerEqL_head_ne {c pc : Char} {rest pat : List Char}
    (h : lowerCh c ≠ pc) : lowerEqL (c :: rest) (pc :: pat) = false := by
  simp [lowerEqL, h]

/-- All characters with codes in an integer literal are below `'a'`, so an
integer literal never matches `null`/`true`/`false` case-insensitively. -/
theorem isIntLit_chars {cs : List Char} (h : isIntLit cs = true) :
    ∀ c ∈ cs, isDigitCh c = true ∨ c = '-' := by
  unfold isIntLit at h
  intro c hc
  split at h
  · rename_i ds
    rcases List.mem_cons.mp hc with h1 | h1
    · right; exact h1
    · left
      simp only [Bool.and_eq_true, List.all_eq_true] at h
      exact h.2 c h1
  · left
    simp only [Bool.and_eq_true, List.all_eq_true] at h
    exact h.2 c hc

def floatChars (c : Char) : Bool :=
  isDigitCh c || c = '-' || c = '.' || c = 'e' || c = 'E' || c = '+'

theorem isExpTail_chars {cs : List Char} (h : isExpTail cs = true) :
    ∀ c ∈ cs, floatChars c = true := by
  unfold isExpTail at h
  intro c hc
  split at h <;>
    simp only [Bool.and_eq_true, List.all_eq_true] at h
  · rcases List.mem_cons.mp hc with h1 | h1
    · subst h1; rfl
    · simp [floatChars, h.2 c h1]
  · rcases List.mem_cons.mp hc with h1 | h1
    · subst h1; rfl
    · simp [floatChars, h.2 c h1]
  · simp [floatChars, h.2 c hc]

theorem isExpPart_chars {cs : List Char} (h : isExpPart cs = true) :
    ∀ c ∈ cs, floatChars c = true := by
  unfold isExpPart at h
  intro c hc
  split at h
  · rcases List.mem_cons.mp hc with h1 | h1
    · subst h1; rfl
    · exact isExpTail_chars h c h1
  · rcases List.mem_cons.mp hc with h1 | h1
    · subst h1; rfl
    · exact isExpTail_chars h c h1
  · simp at h

theorem floatBody_chars {cs : List Char} (h : floatBody cs = true) :
    ∀ c ∈ cs, floatChars c = true := by
  unfold floatBody at h
  simp only [Bool.and_eq_true] at h
  intro c hc
  have hsplit : cs = (cs.span isDigitCh).1 ++ (cs.span isDigitCh).2 := by
    rw [List.span_eq_take_drop]
    exact (List.takeWhile_append_dropWhile (p := isDigitCh) (l := cs)).symm
  rw [hsplit] at hc
  rcases List.mem_append.mp hc with h1 | h1
  · simp [floatChars, mem_span_left h1]
  · rcases h with ⟨_, h2⟩
    revert h2
    generalize (cs.span isDigitCh).2 = r1 at h1
    intro h2
    split at h2
    · rename_i r2
      simp only [Bool.and_eq_true] at h2
      rcases List.mem_cons.mp h1 with h3 | h3
      · subst h3; rfl
      · have hs2 : r2 = (r2.span isDigitCh).1 ++ (r2.span isDigitCh).2 := by
          rw [List.span_eq_take_drop]
          exact (List.takeWhile_append_dropWhile (p := isDigitCh) (l := r2)).symm
        rw [hs2] at h3
        rcases List.mem_append.mp h3 with h4 | h4
        · simp [floatChars, mem_span_left h4]
        · rcases h2 with ⟨_, h5⟩
          rcases Bool.or_eq_true _ _ |>.mp h5 with h6 | h6
          · rw [List.isEmpty_iff.mp h6] at h4
            simp at h4
          · exact isExpPart_chars h6 c h4
    · exact isExpPart_chars h2 c h1

theorem isFloatLit_chars {cs : List Char} (h : isFloatLit cs = true) :
    ∀ c ∈ cs, floatChars c = true := by
  unfold isFloatLit at h
  intro c hc
  split at h
  · rcases List.mem_cons.mp hc with h1 | h1
    · subst h1; rfl
    · exact floatBody_chars h c h1
  · exact floatBody_chars h c hc

/-- An all-digit tail can never satisfy the float grammar (no point, no
exponent), so integer literals are never classified as floats. -/
theorem floatBody_all_digits {ds : List Char} (h : ∀ c ∈ ds, isDigitCh c = true) :
    floatBody ds = false := by
  unfold floatBody
  rw [span_all h]
  cases ds <;> simp [isExpPart]

theorem isFloatLit_of_intLit {cs : List Char} (h : isIntLit cs = true) :
    isFloatLit cs = false := by
  unfold isIntLit at h
  unfold isFloatLit
  split at h <;> rename_i ds <;>
    simp only [Bool.and_eq_true, List.all_eq_true] at h
  · exact floatBody_all_digits h.2
  · exact floatBody_all_digits h.2

theorem isFloatLit_head {cs : List Char} (h : isFloatLit cs = true) :
    ∃ c rest, cs = c :: rest ∧ (isDigitCh c = true ∨ c = '-') := by
  have hbody : ∀ ds : List Char, floatBody ds = true →
      ∃ c rest, ds = c :: rest ∧ isDigitCh c = true := by
    intro ds hds
    unfold floatBody at hds
    simp only [Bool.and_eq_true] at hds
    rcases hds with ⟨h1, _⟩
    rcases hd : ds with _ | ⟨c, rest⟩
    · rw [hd] at h1; simp at h1
    · refine ⟨c, rest, rfl, ?_⟩
      rw [hd] at h1
      simp only [List.span_eq_take_drop, List.takeWhile_cons] at h1
      by_cases hc : isDigitCh c = true
      · exact hc
      · rw [Bool.not_eq_true] at hc
        simp [hc] at h1
  unfold isFloatLit at h
  split at h
  · rename_i r
    exact ⟨'-', r, rfl, Or.inr rfl⟩
  · obtain ⟨c, rest, hcs, hc⟩ := hbody _ h
    exact ⟨c, rest, hcs, Or.inl hc⟩

theorem intLit_head {cs : List Char} (h : isIntLit cs = true) :
    ∃ c rest, cs = c :: rest ∧ (isDigitCh c = true ∨ c = '-') := by
  rcases hd : cs with _ | ⟨c, rest⟩
  · rw [hd] at h; simp [isIntLit] at h
  · refine ⟨c, rest, rfl, ?_⟩
    exact isIntLit_chars h c (by rw [hd]; simp)

/-! ### Trimming and escaping -/

theorem dropWhile_eq_self_of_head {p : Char → Bool} {l : List Char}
    (h : ∀ c, l.head? = some c → p c = false) : l.dropWhile p = l := by
  cases l with
  | nil => rfl
  | cons a as =>
    have := h a rfl
    rw [List.dropWhile_cons_of_neg]
    simp [this]

theorem trimL_eq_self {cs : List Char}
    (h1 : ∀ c, cs.head? = some c → isWsCh c = false)
    (h2 : ∀ c, cs.getLast? = some c → isWsCh c = false) : trimL cs = cs := by
  unfold trimL
  rw [dropWhile_eq_self_of_head h1]
  rw [dropWhile_eq_self_of_head (by
    intro c hc
    rw [List.head?_reverse] at hc
    exact h2 c hc)]
  exact List.reverse_reverse cs

theorem unquoteBody_escape (s : List Char) :
    unquoteBody (escapeL s ++ ['"']) = some s := by
  induction s with
  | nil => rfl
  | cons c rest ih =>
    show unquoteBody ((escCh c ++ escapeL rest) ++ ['"']) = some (c :: rest)
    by_cases h1 : c = '"'
    · subst h1
      show unquoteBody ('\\' :: '"' :: (escapeL rest ++ ['"'])) = _
      simp only [unquoteBody, reduceCtorEq, if_neg, if_pos, ih]
      rfl
    · by_cases h2 : c = '\\'
      · subst h2
        show unquoteBody ('\\' :: '\\' :: (escapeL rest ++ ['"'])) = _
        simp only [unquoteBody, reduceCtorEq, if_neg, if_pos, ih]
        rfl
      · by_cases h3 : c = '\n'
        · subst h3
          show unquoteBody ('\\' :: 'n' :: (escapeL rest ++ ['"'])) = _
          simp only [unquoteBody, reduceCtorEq, if_neg, if_pos, ih]
          rfl
        · by_cases h4 : c = '\r'
          · subst h4
            show unquoteBody ('\\' :: 'r' :: (escapeL rest ++ ['"'])) = _
            simp only [unquoteBody, reduceCtorEq, if_neg, if_pos, ih]
            rfl
          · by_cases h5 : c = '\t'
            · subst h5
              show unquoteBody ('\\' :: 't' :: (escapeL rest ++ ['"'])) = _
              simp only [unquoteBody, reduceCtorEq, if_neg, if_pos, ih]
              rfl
            · have hesc : escCh c = [c] := by
                simp [escCh, h1, h2, h3, h4, h5]
              rw [hesc]
              show unquoteBody (c :: (escapeL rest ++ ['"'])) = _
              rw [unquoteBody.eq_def]
              simp only [if_neg h1, if_neg h2, ih]
              rfl

/-! ### Scalar codec round trip -/

/-- Scalars whose emission is faithful: every scalar, with float values
carrying a grammatical float literal.  Composites are not scalars. -/
def scalarOK : Value → Bool
  | .float lit => isFloatLit lit.data
  | .arr _ => false
  | .obj _ => false
  | _ => true

theorem intish_char_facts {c : Char} (h : isDigitCh c = true ∨ c = '-') :
    isWsCh c = false ∧ c ≠ '"' ∧ c ≠ ',' ∧ c ≠ '\n' ∧ lowerCh c = c := by
  rcases h with h | h
  · have hn : 48 ≤ c.toNat ∧ c.toNat ≤ 57 := by
      simpa [isDigitCh] using h
    have hsp : c ≠ ' ' := fun he => by subst he; exact absurd hn (by decide)
    have htb : c ≠ '\t' := fun he => by subst he; exact absurd hn (by decide)
    have hcr : c ≠ '\r' := fun he => by subst he; exact absurd hn (by decide)
    have hnl : c ≠ '\n' := fun he => by subst he; exact absurd hn (by decide)
    refine ⟨by simp [isWsCh, hsp, htb, hcr, hnl],
      fun he => by subst he; exact absurd hn (by decide),
      fun he => by subst he; exact absurd hn (by decide), hnl,
      lowerCh_of_lt (by omega)⟩
  · subst h
    refine ⟨by decide, by decide, by decide, by decide, by decide⟩

theorem floatChar_facts {c : Char} (h : floatChars c = true) :
    isWsCh c = false ∧ c ≠ '"' ∧ c ≠ ',' ∧ c ≠ '\n' := by
  simp only [floatChars, Bool.or_eq_true, decide_eq_true_eq] at h
  rcases h with ((((h | h) | h) | h) | h) | h
  · have := intish_char_facts (Or.inl h)
    exact ⟨this.1, this.2.1, this.2.2.1, this.2.2.2.1⟩
  all_goals subst h
  all_goals exact ⟨by decide, by decide, by decide, by decide⟩

theorem lowerEqL_intish_false {c : Char} {rest : List Char}
    (h : isDigitCh c = true ∨ c = '-') :
    lowerEqL (c :: rest) nullL = false ∧ lowerEqL (c :: rest) trueL = false ∧
      lowerEqL (c :: rest) falseL = false := by
  have hl := (intish_char_facts h).2.2.2.2
  have hd : c ≠ 'n' ∧ c ≠ 't' ∧ c ≠ 'f' := by
    rcases h with h | h
    · have hn : 48 ≤ c.toNat ∧ c.toNat ≤ 57 := by simpa [isDigitCh] using h
      exact ⟨fun he => by subst he; exact absurd hn (by decide),
        fun he => by subst he; exact absurd hn (by decide),
        fun he => by subst he; exact absurd hn (by decide)⟩
    · subst h; exact ⟨by decide, by decide, by decide⟩
  refine ⟨lowerEqL_head_ne ?_, lowerEqL_head_ne ?_, lowerEqL_head_ne ?_⟩ <;>
    rw [hl]
  · exact hd.1
  · exact hd.2.1
  · exact hd.2.2

theorem needsQuoting_parts {cs : List Char} (h : needsQuotingL cs = false) :
    cs.isEmpty = false ∧ (cs.any fun c => isStructuralCh c || isCtlCh c) = false ∧
      isWsCh (cs.head?.getD 'x') = false ∧ isWsCh (cs.getLast?.getD 'x') = false ∧
      lowerEqL cs nullL = false ∧ lowerEqL cs trueL = false ∧
      lowerEqL cs falseL = false ∧ isIntLit cs = false ∧ isFloatLit cs = false := by
  unfold needsQuotingL at h
  obtain ⟨h, ha⟩ := Bool.or_eq_false_iff.mp h
  obtain ⟨h, e4⟩ := Bool.or_eq_false_iff.mp h
  obtain ⟨h, e3⟩ := Bool.or_eq_false_iff.mp h
  obtain ⟨e1, e2⟩ := Bool.or_eq_false_iff.mp h
  unfold isAmbiguousL at ha
  obtain ⟨ha, e9⟩ := Bool.or_eq_false_iff.mp ha
  obtain ⟨ha, e8⟩ := Bool.or_eq_false_iff.mp ha
  obtain ⟨ha, e7⟩ := Bool.or_eq_false_iff.mp ha
  obtain ⟨e5, e6⟩ := Bool.or_eq_false_iff.mp ha
  exact ⟨e1, e2, e3, e4, e5, e6, e7, e8, e9⟩

/-- Parsing inverts emission on well-formed scalars (spec §8, scalar
canonicality). -/
theorem parse_emit_scalar {v : Value} (h : scalarOK v = true) :
    parseScalarTok (trimL (emitScalarL v)) = .ok v := by
  cases v with
  | null => rfl
  | bool b => cases b <;> rfl
  | int n =>
    show parseScalarTok (trimL (intToChars n)) = _
    have hil := isIntLit_intToChars n
    have hch := isIntLit_chars hil
    obtain ⟨c, rest, hcs, hc⟩ := intLit_head hil
    have hfacts := intish_char_facts hc
    have htrim : trimL (intToChars n) = intToChars n := by
      refine trimL_eq_self ?_ ?_
      · intro x hx
        exact (intish_char_facts (hch x (List.mem_of_mem_head? hx))).1
      · intro x hx
        exact (intish_char_facts (hch x (List.mem_of_mem_getLast? hx))).1
    rw [htrim, hcs]
    rw [hcs] at hil
    have hlow := @lowerEqL_intish_false _ rest hc
    unfold parseScalarTok
    rw [if_neg (by simp [hfacts.2.1]), if_neg (by simp [hlow.1]),
      if_neg (by simp [hlow.2.1]), if_neg (by simp [hlow.2.2]),
      if_pos (by simp [hil])]
    rw [← hcs, parseIntTok_intToChars]
  | float lit =>
    show parseScalarTok (trimL lit.data) = _
    have hfl : isFloatLit lit.data = true := by simpa [scalarOK] using h
    have hch := isFloatLit_chars hfl
    obtain ⟨c, rest, hcs, hc⟩ := isFloatLit_head hfl
    have hil : isIntLit lit.data = false := by
      by_cases hi : isIntLit lit.data = true
      · rw [isFloatLit_of_intLit hi] at hfl; exact absurd hfl (by simp)
      · simpa using hi
    have hfacts := intish_char_facts hc
    have htrim : trimL lit.data = lit.data := by
      refine trimL_eq_self ?_ ?_
      · intro x hx
        exact (floatChar_facts (hch x (List.mem_of_mem_head? hx))).1
      · intro x hx
        exact (floatChar_facts (hch x (List.mem_of_mem_getLast? hx))).1
    rw [htrim, hcs]
    rw [hcs] at hfl hil
    have hlow := @lowerEqL_intish_false _ rest hc
    unfold parseScalarTok
    rw [if_neg (by simp [hfacts.2.1]), if_neg (by simp [hlow.1]),
      if_neg (by simp [hlow.2.1]), if_neg (by simp [hlow.2.2]),
      if_neg (by simp [hil]), if_pos (by simp [hfl])]
    rw [← hcs]
  | str s =>
    show parseScalarTok (trimL (if needsQuotingL s.data then quoteL s.data
      else s.data)) = _
    by_cases hq : needsQuotingL s.data = true
    · rw [if_pos hq]
      have htrim : trimL (quoteL s.data) = quoteL s.data := by
        refine trimL_eq_self ?_ ?_
        · intro x hx
          rw [show (quoteL s.data).head? = some '"' from rfl] at hx
          injection hx with hx
          subst hx; rfl
        · intro x hx
          rw [show quoteL s.data = ('"' :: escapeL s.data) ++ ['"'] from rfl,
            List.getLast?_concat] at hx
          injection hx with hx
          subst hx; rfl
      rw [htrim]
      unfold parseScalarTok
      rw [if_pos (show (quoteL s.data).head? = some '"' from rfl),
        show (quoteL s.data).tail = escapeL s.data ++ ['"'] from rfl,
        unquoteBody_escape]
    · rw [if_neg hq]
      have hq' : needsQuotingL s.data = false := by simpa using hq
      obtain ⟨h1, h2, h3, h4, ha1, ha2, ha3, ha4, ha5⟩ := needsQuoting_parts hq'
      have hmem : ∀ x ∈ s.data, (isStructuralCh x || isCtlCh x) = false := by
        intro x hx
        by_cases hp : (isStructuralCh x || isCtlCh x) = true
        · have : s.data.any (fun c => isStructuralCh c || isCtlCh c) = true :=
            List.any_eq_true.mpr ⟨x, hx, hp⟩
          rw [h2] at this
          exact absurd this (by simp)
        · simpa using hp
      have htrim : trimL s.data = s.data := by
        refine trimL_eq_self ?_ ?_
        · intro x hx
          have hg : s.data.head?.getD 'x' = x := by rw [hx]; rfl
          rwa [hg] at h3
        · intro x hx
          have hg : s.data.getLast?.getD 'x' = x := by rw [hx]; rfl
          rwa [hg] at h4
      rw [htrim]
      rcases hd : s.data with _ | ⟨c, rest⟩
      · rw [hd] at h1; simp at h1
      · have hcq : ¬((c :: rest).head? = some '"') := by
          have hmc := hmem c (by rw [hd]; simp)
          simp only [Bool.or_eq_false_iff] at hmc
          intro he
          rw [List.head?_cons] at he
          injection he with he
          subst he
          simp [isStructuralCh] at hmc
        rw [hd] at ha1 ha2 ha3 ha4 ha5
        unfold parseScalarTok
        rw [if_neg hcq, if_neg (by simp [ha1]), if_neg (by simp [ha2]),
          if_neg (by simp [ha3]), if_neg (by simp [ha4]),
          if_neg (by simp [ha5]), ← hd]
  | arr elems => simp [scalarOK] at h
  | obj entries => simp [scalarOK] at h

/-! ## Row tokenizer (spec §4.3/§6: comma-separated scalars, commas inside
quotes are not separators) -/

inductive ScanSt where
  | top : ScanSt
  | quo : ScanSt
  | esc : ScanSt
  deriving Repr, DecidableEq

/-- Modelled from the spec: quote-aware comma splitter for one row.  `none`
signals a row ending inside a quoted token (*UnterminatedString*). -/
def splitGo : ScanSt → List Char → List Char → Option (List (List Char))
  | .top, [], acc => some [acc.reverse]
  | .quo, [], _ => none
  | .esc, [], _ => none
  | .top, ch :: r, acc =>
    if ch = ',' then (splitGo .top r []).map (acc.reverse :: ·)
    else if ch = '"' then splitGo .quo r ('"' :: acc)
    else splitGo .top r (ch :: acc)
  | .quo, ch :: r, acc =>
    if ch = '"' then splitGo .top r ('"' :: acc)
    else if ch = '\\' then splitGo .esc r ('\\' :: acc)
    else splitGo .quo r (ch :: acc)
  | .esc, ch :: r, acc => splitGo .quo r (ch :: acc)

def splitRowL (cs : List Char) : Option (List (List Char)) := splitGo .top cs []

/-- Tokens the splitter consumes transparently: a quoted token produced by
the emitter, or a chunk free of commas and quotes. -/
def TokOK (t : List Char) : Prop :=
  (∃ b, t = quoteL b) ∨ (∀ c ∈ t, c ≠ ',' ∧ c ≠ '"')

theorem splitGo_plain {t : List Char} (h : ∀ c ∈ t, c ≠ ',' ∧ c ≠ '"') :
    ∀ r acc, splitGo .top (t ++ r) acc = splitGo .top r (t.reverse ++ acc) := by
  induction t with
  | nil => intro r acc; simp
  | cons c ts ih =>
    intro r acc
    have hc := h c (by simp)
    have ih' := ih (fun x hx => h x (by simp [hx]))
    show splitGo .top (c :: (ts ++ r)) acc = _
    rw [splitGo]
    rw [if_neg hc.1, if_neg hc.2, ih']
    simp

theorem splitGo_escaped (s : List Char) :
    ∀ r acc, splitGo .quo (escapeL s ++ r) acc =
      splitGo .quo r ((escapeL s).reverse ++ acc) := by
  induction s with
  | nil => intro r acc; simp [escapeL]
  | cons c ts ih =>
    intro r acc
    show splitGo .quo ((escCh c ++ escapeL ts) ++ r) acc = _
    have hpair : ∀ x, splitGo .quo (('\\' :: x :: escapeL ts) ++ r) acc =
        splitGo .quo r ((escapeL ts).reverse ++ [x, '\\'] ++ acc) := by
      intro x
      show splitGo .quo ('\\' :: (x :: (escapeL ts ++ r))) acc = _
      rw [splitGo, if_neg (by decide), if_pos rfl]
      rw [show splitGo .esc (x :: (escapeL ts ++ r)) ('\\' :: acc) =
        splitGo .quo (escapeL ts ++ r) (x :: '\\' :: acc) from rfl]
      rw [ih]
      simp
    by_cases h1 : c = '"'
    · subst h1
      rw [show escCh '"' = ['\\', '"'] by decide]
      rw [show (escapeL ('"' :: ts)).reverse =
        (escapeL ts).reverse ++ ['"', '\\'] from by
          show (escCh '"' ++ escapeL ts).reverse = _
          simp [show escCh '"' = ['\\', '"'] by decide]]
      exact hpair '"'
    · by_cases h2 : c = '\\'
      · subst h2
        rw [show escCh '\\' = ['\\', '\\'] by decide]
        rw [show (escapeL ('\\' :: ts)).reverse =
          (escapeL ts).reverse ++ ['\\', '\\'] from by
            show (escCh '\\' ++ escapeL ts).reverse = _
            simp [show escCh '\\' = ['\\', '\\'] by decide]]
        exact hpair '\\'
      · by_cases h3 : c = '\n'
        · subst h3
          rw [show escCh '\n' = ['\\', 'n'] by decide]
          rw [show (escapeL ('\n' :: ts)).reverse =
            (escapeL ts).reverse ++ ['n', '\\'] from by
              show (escCh '\n' ++ escapeL ts).reverse = _
              simp [show escCh '\n' = ['\\', 'n'] by decide]]
          exact hpair 'n'
        · by_cases h4 : c = '\r'
          · subst h4
            rw [show escCh '\r' = ['\\', 'r'] by decide]
            rw [show (escapeL ('\r' :: ts)).reverse =
              (escapeL ts).reverse ++ ['r', '\\'] from by
                show (escCh '\r' ++ escapeL ts).reverse = _
                simp [show escCh '\r' = ['\\', 'r'] by decide]]
            exact hpair 'r'
          · by_cases h5 : c = '\t'
            · subst h5
              rw [show escCh '\t' = ['\\', 't'] by decide]
              rw [show (escapeL ('\t' :: ts)).reverse =
                (escapeL ts).reverse ++ ['t', '\\'] from by
                  show (escCh '\t' ++ escapeL ts).reverse = _
                  simp [show escCh '\t' = ['\\', 't'] by decide]]
              exact hpair 't'
            · have hesc : escCh c = [c] := by
                simp [escCh, h1, h2, h3, h4, h5]
              rw [hesc]
              show splitGo .quo (c :: (escapeL ts ++ r)) acc = _
              rw [splitGo, if_neg h1, if_neg h2, ih]
              rw [show escapeL (c :: ts) = escCh c ++ escapeL ts from rfl, hesc]
              simp

theorem splitGo_tok {t : List Char} (h : TokOK t) :
    ∀ r acc, splitGo .top (t ++ r) acc = splitGo .top r (t.reverse ++ acc) := by
  rcases h with ⟨b, rfl⟩ | h
  · intro r acc
    show splitGo .top ('"' :: (escapeL b ++ ['"'] ++ r)) acc = _
    rw [splitGo, if_neg (by decide), if_pos rfl, List.append_assoc,
      List.singleton_append, splitGo_escaped]
    rw [show splitGo .quo ('"' :: r) ((escapeL b).reverse ++ '"' :: acc) =
      splitGo .top r ('"' :: ((escapeL b).reverse ++ '"' :: acc)) from rfl]
    congr 1
    show _ = (('"' :: escapeL b) ++ ['"']).reverse ++ acc
    simp
  · exact splitGo_plain h

/-- The row splitter inverts comma-joining of well-delimited tokens. -/
theorem splitRowL_intercalate {toks : List (List Char)}
    (h : ∀ t ∈ toks, TokOK t) (hne : toks ≠ []) :
    splitRowL (intercalateC [','] toks) = some toks := by
  suffices hgen : ∀ ts, (∀ t ∈ ts, TokOK t) → ts ≠ [] →
      splitGo .top (intercalateC [','] ts) [] = some ts by
    exact hgen toks h hne
  intro ts
  induction ts with
  | nil => intro _ h2; exact absurd rfl h2
  | cons t rest ih =>
    intro hall _
    rcases rest with _ | ⟨t2, ts2⟩
    · show splitGo .top t [] = some [t]
      have := splitGo_tok (hall t (by simp)) [] []
      rw [List.append_nil] at this
      rw [this]
      simp [splitGo]
    · show splitGo .top (t ++ [','] ++ intercalateC [','] (t2 :: ts2)) [] = _
      rw [List.append_assoc, List.singleton_append,
        splitGo_tok (hall t (by simp))]
      rw [splitGo, if_pos rfl]
      rw [ih (fun x hx => hall x (by simp [hx])) (by simp)]
      simp

/-! ## Array-header framer (spec §4.3) -/

def isIdentStart (c : Char) : Bool :=
  (65 ≤ c.toNat && c.toNat ≤ 90) || (97 ≤ c.toNat && c.toNat ≤ 122) || c = '_'

def isIdentCh (c : Char) : Bool := isIdentStart c || isDigitCh c

/-- `name` grammar of §6: `[A-Za-z_][A-Za-z0-9_]*`. -/
def isIdentL : List Char → Bool
  | [] => false
  | c :: rest => isIdentStart c && rest.all isIdentCh

/-- Modelled from the spec: header emission `name[N]{f1,…,fk}:` (§4.3);
the arity hole takes pre-rendered characters (digits or `?`). -/
def emitHeaderL (name : List Char) (arity : List Char)
    (fields : List (List Char)) : List Char :=
  name ++ '[' :: arity ++ ']' :: '{' :: intercalateC [','] fields ++ ['}', ':']

/-- Final header stage: validate the arity characters and split the field
section (`{}` is the empty field list). -/
def parseHeader3 (name nCs fieldsCs : List Char) :
    Except PErr (List Char × Option Nat × List (List Char)) :=
  let fields := if fieldsCs.isEmpty then [] else splitOnC ',' fieldsCs
  if nCs = ['?'] then .ok (name, none, fields)
  else if !nCs.isEmpty && nCs.all isDigitCh then
    .ok (name, some (parseNatL nCs), fields)
  else .error .invalidHeader

/-- Header stage after `]`: expect `{fields}:` to end the line. -/
def parseHeader2 (name nCs rest3 : List Char) :
    Except PErr (List Char × Option Nat × List (List Char)) :=
  let p3 := rest3.span (fun c => !(c = '}'))
  match p3.2 with
  | ['}', ':'] => parseHeader3 name nCs p3.1
  | _ => .error .invalidHeader

/-- Header stage after `[`: read the arity section up to `]{`. -/
def parseHeader1 (name rest1 : List Char) :
    Except PErr (List Char × Option Nat × List (List Char)) :=
  let p2 := rest1.span (fun c => !(c = ']'))
  match p2.2 with
  | ']' :: '{' :: r4 => parseHeader2 name p2.1 r4
  | _ => .error .invalidHeader

/-- Modelled from the spec: header recognition (§4.3).  Returns the name,
the arity (`none` for the `?` placeholder) and the verbatim field list;
any shape violation is *InvalidHeader*. -/
def parseHeaderL (cs : List Char) :
    Except PErr (List Char × Option Nat × List (List Char)) :=
  let p1 := cs.span (fun c => !(c = '['))
  if isIdentL p1.1 then
    match p1.2 with
    | '[' :: r2 => parseHeader1 p1.1 r2
    | _ => .error .invalidHeader
  else .error .invalidHeader

/-- Well-formed field name: non-empty, and free of the characters that the
header frame or the line discipline would swallow (`,`, `}`, newline,
carriage return). -/
def fieldOK (f : List Char) : Bool :=
  !f.isEmpty && f.all (fun c => !(c = ',') && !(c = '}') && !(c = '\n') && !(c = '\r'))

theorem identCh_facts {c : Char} (h : isIdentCh c = true) :
    c ≠ '[' ∧ c ≠ ']' ∧ c ≠ '{' ∧ c ≠ '}' ∧ c ≠ ',' ∧ c ≠ ':' ∧ c ≠ '\n' ∧
      c ≠ '\r' ∧ c ≠ ' ' := by
  simp only [isIdentCh, isIdentStart, Bool.or_eq_true, Bool.and_eq_true,
    decide_eq_true_eq] at h
  rcases h with ((h | h) | h) | h
  · constructor
    · intro he; subst he; exact absurd h (by decide)
    all_goals constructor
    · intro he; subst he; exact absurd h (by decide)
    all_goals constructor
    · intro he; subst he; exact absurd h (by decide)
    all_goals constructor
    · intro he; subst he; exact absurd h (by decide)
    all_goals constructor
    · intro he; subst he; exact absurd h (by decide)
    all_goals constructor
    · intro he; subst he; exact absurd h (by decide)
    all_goals constructor
    · intro he; subst he; exact absurd h (by decide)
    all_goals constructor
    · intro he; subst he; exact absurd h (by decide)
    · intro he; subst he; exact absurd h (by decide)
  · constructor
    · intro he; subst he; exact absurd h (by decide)
    all_goals constructor
    · intro he; subst he; exact absurd h (by decide)
    all_goals constructor
    · intro he; subst he; exact absurd h (by decide)
    all_goals constructor
    · intro he; subst he; exact absurd h (by decide)
    all_goals constructor
    · intro he; subst he; exact absurd h (by decide)
    all_goals constructor
    · intro he; subst he; exact absurd h (by decide)
    all_goals constructor
    · intro he; subst he; exact absurd h (by decide)
    all_goals constructor
    · intro he; subst he; exact absurd h (by decide)
    · intro he; subst he; exact absurd h (by decide)
  · subst h
    refine ⟨by decide, by decide, by decide, by decide, by decide, by decide,
      by decide, by decide, by decide⟩
  · have h2 : 48 ≤ c.toNat ∧ c.toNat ≤ 57 := by simpa [isDigitCh] using h
    constructor
    · intro he; subst he; exact absurd h2 (by decide)
    all_goals constructor
    · intro he; subst he; exact absurd h2 (by decide)
    all_goals constructor
    · intro he; subst he; exact absurd h2 (by decide)
    all_goals constructor
    · intro he; subst he; exact absurd h2 (by decide)
    all_goals constructor
    · intro he; subst he; exact absurd h2 (by decide)
    all_goals constructor
    · intro he; subst he; exact absurd h2 (by decide)
    all_goals constructor
    · intro he; subst he; exact absurd h2 (by decide)
    all_goals constructor
    · intro he; subst he; exact absurd h2 (by decide)
    · intro he; subst he; exact absurd h2 (by decide)

theorem identL_chars {name : List Char} (h : isIdentL name = true) :
    ∀ c ∈ name, isIdentCh c = true := by
  cases name with
  | nil => simp [isIdentL] at h
  | cons c rest =>
    simp only [isIdentL, Bool.and_eq_true, List.all_eq_true] at h
    intro x hx
    rcases List.mem_cons.mp hx with h1 | h1
    · subst h1; simp [isIdentCh, h.1]
    · exact h.2 x h1

theorem mem_intercalateC {sep : List Char} {ls : List (List Char)} {c : Char}
    (h : c ∈ intercalateC sep ls) : c ∈ sep ∨ ∃ l ∈ ls, c ∈ l := by
  induction ls with
  | nil => simp [intercalateC] at h
  | cons x ys ih =>
    cases ys with
    | nil => exact Or.inr ⟨x, by simp, h⟩
    | cons y ys2 =>
      rw [show intercalateC sep (x :: y :: ys2) =
        x ++ sep ++ intercalateC sep (y :: ys2) from rfl] at h
      rcases List.mem_append.mp h with h1 | h1
      · rcases List.mem_append.mp h1 with h2 | h2
        · exact Or.inr ⟨x, by simp, h2⟩
        · exact Or.inl h2
      · rcases ih h1 with h2 | ⟨l, hl, hc⟩
        · exact Or.inl h2
        · exact Or.inr ⟨l, by simp [hl], hc⟩

theorem digitCh_ne {c : Char} (h : isDigitCh c = true) :
    c ≠ ']' ∧ c ≠ '?' ∧ c ≠ '\n' ∧ c ≠ '\r' ∧ c ≠ '[' := by
  have h2 : 48 ≤ c.toNat ∧ c.toNat ≤ 57 := by simpa [isDigitCh] using h
  refine ⟨?_, ?_, ?_, ?_, ?_⟩ <;>
    (intro he; subst he; exact absurd h2 (by decide))

theorem natToChars_ne_query (N : Nat) : natToChars N ≠ ['?'] := by
  intro he
  have : '?' ∈ natToChars N := by rw [he]; simp
  have := natToChars_digits this
  exact absurd this (by decide)

theorem fieldOK_chars {f : List Char} (h : fieldOK f = true) :
    ∀ c ∈ f, c ≠ ',' ∧ c ≠ '}' ∧ c ≠ '\n' ∧ c ≠ '\r' := by
  simp only [fieldOK, Bool.and_eq_true, List.all_eq_true] at h
  intro c hc
  have := h.2 c hc
  simp only [Bool.and_eq_true, Bool.not_eq_eq_eq_not, Bool.not_true,
    decide_eq_false_iff_not] at this
  exact ⟨this.1.1.1, this.1.1.2, this.1.2, this.2⟩

/-- `emitHeaderL` in fully right-nested form. -/
theorem emitHeaderL_eq (name arity : List Char) (fields : List (List Char)) :
    emitHeaderL name arity fields =
      name ++ ('[' :: (arity ++ (']' :: ('{' ::
        (intercalateC [','] fields ++ ['}', ':']))))) := by
  unfold emitHeaderL
  simp [List.append_assoc]

/-- Header recognition inverts header emission for a numeric arity. -/
theorem parseHeaderL_emit {name : List Char} {fields : List (List Char)}
    (N : Nat) (hn : isIdentL name = true)
    (hf : ∀ f ∈ fields, fieldOK f = true) :
    parseHeaderL (emitHeaderL name (natToChars N) fields) =
      .ok (name, some N, fields) := by
  have hp1 : (emitHeaderL name (natToChars N) fields).span (fun c => !(c = '[')) =
      (name, '[' :: (natToChars N ++ (']' :: ('{' ::
        (intercalateC [','] fields ++ ['}', ':']))))) := by
    rw [emitHeaderL_eq]
    refine span_append (p := fun c => !(c = '[')) name _ ?_ ?_
    · intro c hc
      have := (identCh_facts (identL_chars hn c hc)).1
      simp [this]
    · decide
  have hp2 : (natToChars N ++ (']' :: ('{' ::
      (intercalateC [','] fields ++ ['}', ':'])))).span (fun c => !(c = ']')) =
      (natToChars N, ']' :: ('{' :: (intercalateC [','] fields ++ ['}', ':']))) := by
    refine span_append (p := fun c => !(c = ']')) _ _ ?_ ?_
    · intro c hc
      have := (digitCh_ne (natToChars_digits hc)).1
      simp [this]
    · decide
  have hp3 : (intercalateC [','] fields ++ ['}', ':']).span (fun c => !(c = '}')) =
      (intercalateC [','] fields, '}' :: [':']) := by
    refine span_append (p := fun c => !(c = '}')) _ _ ?_ ?_
    · intro c hc
      rcases mem_intercalateC hc with h1 | ⟨l, hl, hc2⟩
      · simp at h1; subst h1; decide
      · have := (fieldOK_chars (hf l hl) c hc2).2.1
        simp [this]
    · decide
  have step1 : parseHeaderL (emitHeaderL name (natToChars N) fields) =
      parseHeader1 name (natToChars N ++ (']' :: ('{' ::
        (intercalateC [','] fields ++ ['}', ':'])))) := by
    unfold parseHeaderL
    rw [hp1]
    simp only [if_pos hn]
  have step2 : parseHeader1 name (natToChars N ++ (']' :: ('{' ::
      (intercalateC [','] fields ++ ['}', ':'])))) =
      parseHeader2 name (natToChars N)
        (intercalateC [','] fields ++ ['}', ':']) := by
    unfold parseHeader1
    rw [hp2]
    rfl
  have step3 : parseHeader2 name (natToChars N)
      (intercalateC [','] fields ++ ['}', ':']) =
      parseHeader3 name (natToChars N) (intercalateC [','] fields) := by
    unfold parseHeader2
    rw [hp3]
    rfl
  rw [step1, step2, step3]
  unfold parseHeader3
  simp only [if_neg (natToChars_ne_query N)]
  have hdig : (!(natToChars N).isEmpty && (natToChars N).all isDigitCh) = true := by
    have h1 : (natToChars N).isEmpty = false := by
      rcases he : natToChars N with _ | _
      · exact absurd he (natToChars_ne_nil N)
      · rfl
    simp only [h1, Bool.not_false, Bool.true_and, List.all_eq_true]
    exact fun c hc => natToChars_digits hc
  rw [if_pos hdig, parseNatL_natToChars]
  rcases hfs : fields with _ | ⟨f1, frest⟩
  · rfl
  · have hne : (intercalateC [','] (f1 :: frest)).isEmpty = false := by
      have hf1 : fieldOK f1 = true := hf f1 (by rw [hfs]; simp)
      have hf1ne : f1 ≠ [] := by
        simp only [fieldOK, Bool.and_eq_true] at hf1
        intro he
        rw [he] at hf1
        simp at hf1
      rcases f1 with _ | ⟨a, b⟩
      · exact absurd rfl hf1ne
      · cases frest <;> rfl
    rw [show (if (intercalateC [','] (f1 :: frest)).isEmpty = true then []
      else splitOnC ',' (intercalateC [','] (f1 :: frest))) =
      splitOnC ',' (intercalateC [','] (f1 :: frest)) from by rw [hne]; rfl]
    rw [splitOnC_intercalate ',' (f1 :: frest) (by simp)
      (fun l hl x hx => (fieldOK_chars (hf l (by rw [hfs]; exact hl)) x hx).1)]

/-! ## Document serializer (spec §4.3 emission, §4.4) -/

/-- One record row: `indent_size` spaces, comma-joined scalar cells, `\n`. -/
def emitRowL (indent : Nat) (vals : List Value) : List Char :=
  List.replicate indent ' ' ++ intercalateC [','] (vals.map emitScalarL) ++ ['\n']

/-- Modelled from the spec: block emission (§4.3) — field order comes from
the first record, every record must flatten to the same ordered field list
(*NonUniformArray* otherwise, the §3 uniformity invariant), and each cell
must be a scalar the codec can carry. -/
def emitArrayBlock (indent : Nat) (name : List Char)
    (recs : List (List (String × Value))) : Except SErr (List Char) :=
  let fields := (recs.headD []).map Prod.fst
  if recs.all (fun r => r.map Prod.fst == fields) then
    if recs.all (fun r => r.all (fun p => scalarOK p.2)) then
      .ok (emitHeaderL name (natToChars recs.length) (fields.map String.data) ++
        '\n' :: (recs.map (fun r => emitRowL indent (r.map Prod.snd))).flatten)
    else .error .unsupportedValue
  else .error .nonUniformArray

/-- View an array's elements as records, if they are all objects. -/
def asRecords : List Value → Option (List (List (String × Value)))
  | [] => some []
  | .obj r :: rest => (asRecords rest).map (r :: ·)
  | _ => none

/-- Modelled from the spec: document serialization (§4.4) — one block per
top-level key, a bare scalar for a primitive document. -/
def emitDocL (v : Value) : Except SErr (List Char) :=
  match v with
  | .obj entries =>
    (entries.mapM (fun (p : String × Value) =>
      match p.2 with
      | .arr elems =>
        match asRecords elems with
        | some recs => emitArrayBlock 2 p.1.data recs
        | none => .error .unsupportedValue
      | _ => .error .unsupportedValue)).map List.flatten
  | .arr _ => .error .unsupportedValue
  | _ => .ok (emitScalarL v)

/-- `stringify`: serialize a document to TOON text (raises
`ToonSerializeError` in the missing source; `Except` here). -/
def stringify (v : Value) : Except SErr String := (emitDocL v).map String.mk

/-! ## Document parser (spec §4.3 parsing, §4.4) -/

/-- Drop one trailing carriage return (`\r\n` acceptance, spec §6). -/
def stripCR (l : List Char) : List Char :=
  if l.getLast? = some '\r' then l.dropLast else l

def linesOf (cs : List Char) : List (List Char) := (splitOnC '\n' cs).map stripCR

/-- Whitespace-only line. -/
def isBlankL (l : List Char) : Bool := (trimL l).isEmpty

/-- Modelled from the spec: one body row (§4.3) — exactly `indent` spaces
(*IndentError* otherwise), quote-aware comma split
(*UnterminatedString*), exactly `k` cells (*FieldCountMismatch*), each
cell through the scalar codec. -/
def parseToks (k : Nat) : Option (List (List Char)) → Except PErr (List Value)
  | none => .error .unterminatedString
  | some toks =>
    if toks.length = k then toks.mapM (fun t => parseScalarTok (trimL t))
    else .error .fieldCountMismatch

def parseRowL (indent k : Nat) (l : List Char) : Except PErr (List Value) :=
  let pre := l.take indent
  let body := l.drop indent
  if pre = List.replicate indent ' ' && !(body.head?.getD 'x' = ' ') then
    parseToks k (splitRowL body)
  else .error .indentError

def parseBlockRows (indent : Nat) (fields : List String)
    (body : List (List Char)) : Except PErr (List (List (String × Value))) :=
  body.mapM (fun bl => (parseRowL indent fields.length bl).map (fields.zip ·))

/-- Modelled from the spec: one array block (§4.3) — header, then the
indented body; a numeric arity must equal the body row count
(*RowCountMismatch*), the `?` placeholder accepts any count (§4.6). -/
def parseBlockAt (indent : Nat) (l : List Char) (rest : List (List Char)) :
    Except PErr ((String × List (List (String × Value))) × List (List Char)) := do
  let (name, arity, fieldCs) ← parseHeaderL l
  let fields := fieldCs.map String.mk
  let pr := rest.span (fun x => x.head?.getD 'x' = ' ')
  match arity with
  | some n =>
    if pr.1.length = n then
      (parseBlockRows indent fields pr.1).map
        (fun recs => ((String.mk name, recs), pr.2))
    else .error .rowCountMismatch
  | none =>
    (parseBlockRows indent fields pr.1).map
      (fun recs => ((String.mk name, recs), pr.2))

/-- Modelled from the spec: the block sequencer of §4.4, with fuel (the
bound `lines.length + 1` always suffices; exhaustion is unreachable). -/
def parseBlocksF (fuel indent : Nat) (ls : List (List Char)) :
    Except PErr (List (String × List (List (String × Value)))) :=
  match ls with
  | [] => .ok []
  | l :: rest =>
    match fuel with
    | 0 => .error .invalidHeader
    | fuel + 1 =>
      if isBlankL l then parseBlocksF fuel indent rest
      else do
        let (blk, rest2) ← parseBlockAt indent l rest
        let tail ← parseBlocksF fuel indent rest2
        .ok (blk :: tail)

/-- Assemble parsed blocks into the top-level object, rejecting duplicate
array names (§4.4). -/
def parseBlocksTop (ls : List (List Char)) : Except PErr Value := do
  let blocks ← parseBlocksF (ls.length + 1) 2 ls
  if (blocks.map Prod.fst).Nodup then
    .ok (.obj (blocks.map (fun b => (b.1, Value.arr (b.2.map Value.obj)))))
  else .error .duplicateArrayName

def exceptOk {ε α : Type} : Except ε α → Bool
  | .ok _ => true
  | .error _ => false

/-- Modelled from the spec: whole-document parsing (§4.4) — empty or
whitespace-only input is `Null`; a single non-header line is a bare
scalar; otherwise a sequence of array blocks. -/
def nbLines (cs : List Char) : List (List Char) :=
  (linesOf cs).filter (fun l => !isBlankL l)

def parseDocL (cs : List Char) : Except PErr Value :=
  if (nbLines cs).isEmpty then .ok .null
  else if (nbLines cs).length = 1 &&
      !exceptOk (parseHeaderL ((nbLines cs).headD [])) then
    parseScalarTok (trimL ((nbLines cs).headD []))
  else parseBlocksTop (linesOf cs)

/-- `parse`: TOON text to a document (raises `ToonParseError` in the
missing source; `Except` here). -/
def parse (s : String) : Except PErr Value := parseDocL s.data

/-! ## Emitted tokens are line- and scanner-safe -/

theorem ws_false_ne {c : Char} (h : isWsCh c = false) :
    c ≠ ' ' ∧ c ≠ '\t' ∧ c ≠ '\r' ∧ c ≠ '\n' := by
  simp only [isWsCh, Bool.or_eq_false_iff, decide_eq_false_iff_not] at h
  exact ⟨h.1.1.1, h.1.1.2, h.1.2, h.2⟩

theorem ctl_false_ne {c : Char} (h : isCtlCh c = false) :
    c ≠ '\n' ∧ c ≠ '\r' ∧ c ≠ '\t' := by
  have h2 : ¬c.toNat < 32 := by simpa [isCtlCh] using h
  refine ⟨?_, ?_, ?_⟩ <;> (intro he; subst he; exact h2 (by decide))

theorem escapeL_chars {s : List Char} :
    ∀ x ∈ escapeL s, x ≠ '\n' ∧ x ≠ '\r' := by
  induction s with
  | nil => simp [escapeL]
  | cons c rest ih =>
    intro x hx
    rw [show escapeL (c :: rest) = escCh c ++ escapeL rest from rfl] at hx
    rcases List.mem_append.mp hx with h1 | h1
    · unfold escCh at h1
      split at h1
      · fin_cases h1 <;> exact ⟨by decide, by decide⟩
      · split at h1
        · fin_cases h1 <;> exact ⟨by decide, by decide⟩
        · split at h1
          · fin_cases h1 <;> exact ⟨by decide, by decide⟩
          · split at h1
            · fin_cases h1 <;> exact ⟨by decide, by decide⟩
            · split at h1
              · fin_cases h1 <;> exact ⟨by decide, by decide⟩
              · rename_i n1 n2 n3 n4 n5
                simp only [List.mem_singleton] at h1
                subst h1
                exact ⟨n3, n4⟩
    · exact ih x h1

/-- Emitted scalar tokens never contain a newline or carriage return. -/
theorem emitScalar_no_nlcr {v : Value} (h : scalarOK v = true) :
    ∀ c ∈ emitScalarL v, c ≠ '\n' ∧ c ≠ '\r' := by
  cases v with
  | null => intro c hc; fin_cases hc <;> exact ⟨by decide, by decide⟩
  | bool b =>
    cases b <;> intro c hc <;> fin_cases hc <;> exact ⟨by decide, by decide⟩
  | int n =>
    intro c hc
    have := (intish_char_facts (isIntLit_chars (isIntLit_intToChars n) c hc)).1
    have := ws_false_ne this
    exact ⟨this.2.2.2, this.2.2.1⟩
  | float lit =>
    intro c hc
    have hfl : isFloatLit lit.data = true := by simpa [scalarOK] using h
    have := (floatChar_facts (isFloatLit_chars hfl c hc)).1
    have := ws_false_ne this
    exact ⟨this.2.2.2, this.2.2.1⟩
  | str s =>
    show ∀ c ∈ (if needsQuotingL s.data then quoteL s.data else s.data), _
    by_cases hq : needsQuotingL s.data = true
    · rw [if_pos hq]
      intro c hc
      rcases List.mem_cons.mp hc with h1 | h1
      · subst h1; exact ⟨by decide, by decide⟩
      · rcases List.mem_append.mp h1 with h2 | h2
        · exact escapeL_chars c h2
        · simp at h2; subst h2; exact ⟨by decide, by decide⟩
    · rw [if_neg hq]
      intro c hc
      obtain ⟨-, h2, -⟩ := needsQuoting_parts (by simpa using hq)
      have hp : (isStructuralCh c || isCtlCh c) = false := by
        by_cases hx : (isStructuralCh c || isCtlCh c) = true
        · have : s.data.any (fun x => isStructuralCh x || isCtlCh x) = true :=
            List.any_eq_true.mpr ⟨c, hc, hx⟩
          rw [h2] at this; exact absurd this (by simp)
        · simpa using hx
      have := ctl_false_ne (Bool.or_eq_false_iff.mp hp).2
      exact ⟨this.1, this.2.1⟩
  | arr elems => simp [scalarOK] at h
  | obj entries => simp [scalarOK] at h

/-- Emitted scalar tokens are transparent to the row splitter. -/
theorem emitScalar_TokOK {v : Value} (h : scalarOK v = true) :
    TokOK (emitScalarL v) := by
  cases v with
  | null => exact Or.inr (by decide)
  | bool b => cases b <;> exact Or.inr (by decide)
  | int n =>
    refine Or.inr (fun c hc => ?_)
    have := intish_char_facts (isIntLit_chars (isIntLit_intToChars n) c hc)
    exact ⟨this.2.2.1, this.2.1⟩
  | float lit =>
    refine Or.inr (fun c hc => ?_)
    have hfl : isFloatLit lit.data = true := by simpa [scalarOK] using h
    have := floatChar_facts (isFloatLit_chars hfl c hc)
    exact ⟨this.2.2.1, this.2.1⟩
  | str s =>
    show TokOK (if needsQuotingL s.data then quoteL s.data else s.data)
    by_cases hq : needsQuotingL s.data = true
    · rw [if_pos hq]; exact Or.inl ⟨s.data, rfl⟩
    · rw [if_neg hq]
      refine Or.inr (fun c hc => ?_)
      obtain ⟨-, h2, -⟩ := needsQuoting_parts (by simpa using hq)
      have hp : (isStructuralCh c || isCtlCh c) = false := by
        by_cases hx : (isStructuralCh c || isCtlCh c) = true
        · have : s.data.any (fun x => isStructuralCh x || isCtlCh x) = true :=
            List.any_eq_true.mpr ⟨c, hc, hx⟩
          rw [h2] at this; exact absurd this (by simp)
        · simpa using hx
      have hs : isStructuralCh c = false := (Bool.or_eq_false_iff.mp hp).1
      simp only [isStructuralCh, Bool.or_eq_false_iff,
        decide_eq_false_iff_not] at hs
      exact ⟨hs.1.1.1.1.1.1, hs.2⟩
  | arr elems => simp [scalarOK] at h
  | obj entries => simp [scalarOK] at h

/-- Emitted scalar tokens are non-empty and start with a non-whitespace,
non-space character. -/
theorem emitScalar_head {v : Value} (h : scalarOK v = true) :
    ∃ c rest, emitScalarL v = c :: rest ∧ isWsCh c = false := by
  cases v with
  | null => exact ⟨'n', _, rfl, by decide⟩
  | bool b =>
    cases b
    · exact ⟨'f', _, rfl, by decide⟩
    · exact ⟨'t', _, rfl, by decide⟩
  | int n =>
    obtain ⟨c, rest, hcs, hc⟩ := intLit_head (isIntLit_intToChars n)
    exact ⟨c, rest, hcs, (intish_char_facts hc).1⟩
  | float lit =>
    have hfl : isFloatLit lit.data = true := by simpa [scalarOK] using h
    obtain ⟨c, rest, hcs, hc⟩ := isFloatLit_head hfl
    exact ⟨c, rest, by simpa [emitScalarL] using hcs, (intish_char_facts hc).1⟩
  | str s =>
    show ∃ c rest, (if needsQuotingL s.data then quoteL s.data else s.data) = _ ∧ _
    by_cases hq : needsQuotingL s.data = true
    · rw [if_pos hq]
      exact ⟨'"', _, rfl, by decide⟩
    · rw [if_neg hq]
      obtain ⟨h1, -, h3, -⟩ := needsQuoting_parts (by simpa using hq)
      rcases hd : s.data with _ | ⟨c, rest⟩
      · rw [hd] at h1; simp at h1
      · refine ⟨c, rest, rfl, ?_⟩
        rw [hd] at h3
        simpa using h3
  | arr elems => simp [scalarOK] at h
  | obj entries => simp [scalarOK] at h

/-- Splitting off a prefix whose elements all satisfy `p`, where the first
remaining element (if any) does not. -/
theorem span_append_gen {α : Type} {p : α → Bool} (l r : List α)
    (hl : ∀ c ∈ l, p c = true)
    (hr : ∀ x, r.head? = some x → p x = false) :
    (l ++ r).span p = (l, r) := by
  cases r with
  | nil =>
    rw [List.append_nil]
    exact span_all hl
  | cons x r2 => exact span_append l r2 hl (hr x rfl)

theorem zip_fst_snd (r : List (String × Value)) :
    (r.map Prod.fst).zip (r.map Prod.snd) = r := by
  induction r with
  | nil => rfl
  | cons p ps ih => simp [ih]

theorem mapM_parse_emit {vals : List Value} (h : ∀ v ∈ vals, scalarOK v = true) :
    (vals.map emitScalarL).mapM (fun t => parseScalarTok (trimL t)) = .ok vals := by
  induction vals with
  | nil => rfl
  | cons v vs ih =>
    simp only [List.map_cons, List.mapM_cons]
    rw [parse_emit_scalar (h v (by simp)), ih (fun x hx => h x (by simp [hx]))]
    rfl

/-- The row content of a non-empty list of well-formed cells. -/
theorem rowContent_head {vals : List Value} (hne : vals ≠ [])
    (h : ∀ v ∈ vals, scalarOK v = true) :
    ∃ c rest, intercalateC [','] (vals.map emitScalarL) = c :: rest ∧
      isWsCh c = false := by
  rcases vals with _ | ⟨v, vs⟩
  · exact absurd rfl hne
  · obtain ⟨c, crest, hcs, hc⟩ := emitScalar_head (h v (by simp))
    rcases vs with _ | ⟨v2, vs2⟩
    · exact ⟨c, crest, by simpa [intercalateC] using hcs, hc⟩
    · refine ⟨c, crest ++ [','] ++ intercalateC [','] ((v2 :: vs2).map emitScalarL),
        ?_, hc⟩
      show emitScalarL v ++ [','] ++ _ = _
      rw [hcs]
      simp [List.append_assoc]

/-- Row parsing inverts row emission. -/
theorem parseRow_emit {vals : List Value} (hne : vals ≠ [])
    (h : ∀ v ∈ vals, scalarOK v = true) :
    parseRowL 2 vals.length
      (List.replicate 2 ' ' ++ intercalateC [','] (vals.map emitScalarL)) =
      .ok vals := by
  obtain ⟨c, rest, hcs, hc⟩ := rowContent_head hne h
  unfold parseRowL
  rw [show (List.replicate 2 ' ' ++
      intercalateC [','] (vals.map emitScalarL)).take 2 =
    List.replicate 2 ' ' from by
      have := List.take_left (List.replicate 2 ' ')
        (intercalateC [','] (vals.map emitScalarL))
      simpa using this]
  rw [show (List.replicate 2 ' ' ++
      intercalateC [','] (vals.map emitScalarL)).drop 2 =
    intercalateC [','] (vals.map emitScalarL) from by
      have := List.drop_left (List.replicate 2 ' ')
        (intercalateC [','] (vals.map emitScalarL))
      simpa using this]
  rw [if_pos (by
    rw [hcs]
    simp only [List.head?_cons, Option.getD_some, Bool.and_eq_true,
      decide_eq_true_eq, Bool.not_eq_eq_eq_not, Bool.not_true,
      decide_eq_false_iff_not]
    exact ⟨by trivial, (ws_false_ne hc).1⟩)]
  rw [show splitRowL (intercalateC [','] (vals.map emitScalarL)) =
    some (vals.map emitScalarL) from
      splitRowL_intercalate (fun t ht => by
        obtain ⟨v, hv, rfl⟩ := List.mem_map.mp ht
        exact emitScalar_TokOK (h v hv))
      (by simpa using hne)]
  simp only [parseToks]
  rw [if_pos (by simp)]
  exact mapM_parse_emit h

/-! ## Well-formed tabular documents (the hypotheses of the round trip) -/

/-- Well-formed record for a declared field list: non-empty, keys equal to
the field list in order, names frame-safe, every cell a faithful scalar. -/
def wfRecord (fields : List String) (r : List (String × Value)) : Bool :=
  !r.isEmpty && (r.map Prod.fst == fields) &&
    r.all (fun p => fieldOK p.1.data && scalarOK p.2)

/-- Uniform table: every record matches the first record's field list. -/
def wfTable (recs : List (List (String × Value))) : Bool :=
  recs.all (fun r => wfRecord ((recs.headD []).map Prod.fst) r)

def entryRecs (p : String × Value) : List (List (String × Value)) :=
  match p.2 with
  | .arr elems => (asRecords elems).getD []
  | _ => []

def wfEntry (p : String × Value) : Bool :=
  isIdentL p.1.data &&
    (match p.2 with
     | .arr elems =>
       (match asRecords elems with
        | some recs => wfTable recs
        | none => false)
     | _ => false)

/-- Well-formed tabular document: a non-empty top-level object with
distinct identifier keys whose values are uniform arrays of records. -/
def wfDoc : Value → Bool
  | .obj entries =>
    !entries.isEmpty && entries.all wfEntry &&
      decide (entries.map Prod.fst).Nodup
  | _ => false

/-- Body row line as emitted (without the terminating newline). -/
def rowLineOf (r : List (String × Value)) : List Char :=
  List.replicate 2 ' ' ++ intercalateC [','] ((r.map Prod.snd).map emitScalarL)

/-- The lines of one emitted block: header then one line per record. -/
def blockLinesOf (name : String) (recs : List (List (String × Value))) :
    List (List Char) :=
  emitHeaderL name.data (natToChars recs.length)
      (((recs.headD []).map Prod.fst).map String.data) :: recs.map rowLineOf

/-- The lines of an emitted document. -/
def docLinesOf (entries : List (String × Value)) : List (List Char) :=
  (entries.map (fun p => blockLinesOf p.1 (entryRecs p))).flatten

theorem map_mk_data (ks : List String) :
    (ks.map String.data).map String.mk = ks := by
  induction ks with
  | nil => rfl
  | cons k rest ih => simp [ih]

theorem asRecords_map_obj : ∀ {elems : List Value}
    {recs : List (List (String × Value))}, asRecords elems = some recs →
    recs.map Value.obj = elems := by
  intro elems
  induction elems with
  | nil => intro recs h; cases h; rfl
  | cons v rest ih =>
    intro recs h
    cases v with
    | obj r =>
      rw [show asRecords (Value.obj r :: rest) =
        (asRecords rest).map (r :: ·) from rfl] at h
      rcases hrest : asRecords rest with _ | rs
      · rw [hrest] at h; cases h
      · rw [hrest] at h
        injection h with h
        subst h
        simp [ih hrest]
    | null => cases h
    | bool b => cases h
    | int n => cases h
    | float l => cases h
    | str t => cases h
    | arr a => cases h

theorem mem_dropWhile_of_not {p : Char → Bool} {l : List Char} {c : Char}
    (hc : c ∈ l) (hp : p c = false) : c ∈ l.dropWhile p := by
  induction l with
  | nil => simp at hc
  | cons x xs ih =>
    by_cases hx : p x = true
    · rw [List.dropWhile_cons_of_pos hx]
      rcases List.mem_cons.mp hc with h | h
      · subst h; rw [hx] at hp; exact absurd hp (by simp)
      · exact ih h
    · rw [List.dropWhile_cons_of_neg (by simpa using hx)]
      exact hc

/-- A line containing a non-whitespace character is not blank. -/
theorem isBlankL_false {l : List Char} {c : Char} (hc : c ∈ l)
    (hw : isWsCh c = false) : isBlankL l = false := by
  unfold isBlankL trimL
  have h1 : c ∈ l.dropWhile isWsCh := mem_dropWhile_of_not hc hw
  have h2 : c ∈ (l.dropWhile isWsCh).reverse.dropWhile isWsCh :=
    mem_dropWhile_of_not (by simpa using h1) hw
  rcases he : ((l.dropWhile isWsCh).reverse.dropWhile isWsCh).reverse with _ | _
  · rw [← List.mem_reverse, he] at h2; simp at h2
  · rfl

theorem identStart_ne_space {c : Char} (h : isIdentStart c = true) :
    (c = ' ') = False := by
  simp only [isIdentStart, Bool.or_eq_true, Bool.and_eq_true,
    decide_eq_true_eq] at h
  simp only [eq_iff_iff, iff_false]
  rcases h with (h | h) | h
  · intro he; subst he; exact absurd h (by decide)
  · intro he; subst he; exact absurd h (by decide)
  · subst h; decide

/-- The head character of an emitted header line is an identifier start. -/
theorem header_head {name : List Char} {arity : List Char}
    {fields : List (List Char)} (hn : isIdentL name = true) :
    ∃ c rest, emitHeaderL name arity fields = c :: rest ∧
      isIdentStart c = true := by
  rcases name with _ | ⟨c, nr⟩
  · simp [isIdentL] at hn
  · simp only [isIdentL, Bool.and_eq_true] at hn
    exact ⟨c, _, rfl, hn.1⟩

theorem ok_bind {ε α β : Type} (x : α) (f : α → Except ε β) :
    (Except.ok (ε := ε) x >>= f) = f x := rfl

theorem wfTable_uniform {recs : List (List (String × Value))}
    (h : wfTable recs = true) :
    ∀ r ∈ recs, r.map Prod.fst = (recs.headD []).map Prod.fst := by
  intro r hr
  have := List.all_eq_true.mp h r hr
  simp only [wfRecord, Bool.and_eq_true, beq_iff_eq] at this
  exact this.1.2

theorem wfTable_record {recs : List (List (String × Value))}
    (h : wfTable recs = true) : ∀ r ∈ recs, r ≠ [] ∧
      ∀ p ∈ r, fieldOK p.1.data = true ∧ scalarOK p.2 = true := by
  intro r hr
  have := List.all_eq_true.mp h r hr
  simp only [wfRecord, Bool.and_eq_true, List.all_eq_true] at this
  refine ⟨?_, ?_⟩
  · intro he
    rw [he] at this
    simp at this
  · intro p hp
    have := this.2 p hp
    simpa [Bool.and_eq_true] using this

/-- Block emission succeeds on a well-formed table and produces
newline-terminated lines. -/
theorem emitArrayBlock_ok {recs : List (List (String × Value))}
    (name : String) (hwf : wfTable recs = true) :
    emitArrayBlock 2 name.data recs =
      .ok (((blockLinesOf name recs).map (· ++ ['\n'])).flatten) := by
  unfold emitArrayBlock
  have hu : recs.all
      (fun r => r.map Prod.fst == (recs.headD []).map Prod.fst) = true := by
    rw [List.all_eq_true]
    intro r hr
    have := wfTable_uniform hwf r hr
    simpa [beq_iff_eq] using this
  have hs : recs.all (fun r => r.all fun p => scalarOK p.2) = true := by
    rw [List.all_eq_true]
    intro r hr
    rw [List.all_eq_true]
    intro p hp
    exact ((wfTable_record hwf r hr).2 p hp).2
  rw [if_pos hu, if_pos hs]
  congr 1
  simp only [blockLinesOf, List.map_cons, List.flatten_cons, List.map_map]
  rw [show recs.map ((· ++ ['\n']) ∘ rowLineOf) =
    recs.map (fun r => emitRowL 2 (r.map Prod.snd)) from rfl]
  rw [List.append_assoc]
  rfl

/-- Every character of an emitted block line is newline- and CR-free. -/
theorem blockLinesOf_chars {recs : List (List (String × Value))}
    {name : String} (hn : isIdentL name.data = true) (hwf : wfTable recs = true) :
    ∀ l ∈ blockLinesOf name recs, ∀ c ∈ l, c ≠ '\n' ∧ c ≠ '\r' := by
  intro l hl c hc
  rcases List.mem_cons.mp hl with h | h
  · subst h
    rw [emitHeaderL_eq] at hc
    rcases List.mem_append.mp hc with h1 | h1
    · have := identCh_facts (identL_chars hn c h1)
      exact ⟨this.2.2.2.2.2.2.1, this.2.2.2.2.2.2.2.1⟩
    · rcases List.mem_cons.mp h1 with h2 | h2
      · subst h2; exact ⟨by decide, by decide⟩
      · rcases List.mem_append.mp h2 with h3 | h3
        · have := digitCh_ne (natToChars_digits h3)
          exact ⟨this.2.2.1, this.2.2.2.1⟩
        · rcases List.mem_cons.mp h3 with h4 | h4
          · subst h4; exact ⟨by decide, by decide⟩
          · rcases List.mem_cons.mp h4 with h5 | h5
            · subst h5; exact ⟨by decide, by decide⟩
            · rcases List.mem_append.mp h5 with h6 | h6
              · rcases mem_intercalateC h6 with h7 | ⟨f, hf, hcf⟩
                · simp at h7; subst h7; exact ⟨by decide, by decide⟩
                · obtain ⟨k, hk, rfl⟩ := List.mem_map.mp hf
                  obtain ⟨p, hp, rfl⟩ := List.mem_map.mp hk
                  have hfo := ((wfTable_record hwf _ ?_).2 p hp).1
                  · have := fieldOK_chars hfo c hcf
                    exact ⟨this.2.2.1, this.2.2.2⟩
                  · rcases recs with _ | ⟨r0, rr⟩
                    · simp at hp
                    · simp
              · fin_cases h6 <;> exact ⟨by decide, by decide⟩
  · obtain ⟨r, hr, rfl⟩ := List.mem_map.mp h
    unfold rowLineOf at hc
    rcases List.mem_append.mp hc with h1 | h1
    · have := List.eq_of_mem_replicate h1
      subst this
      exact ⟨by decide, by decide⟩
    · rcases mem_intercalateC h1 with h2 | ⟨t, ht, hct⟩
      · simp at h2; subst h2; exact ⟨by decide, by decide⟩
      · obtain ⟨v, hv, rfl⟩ := List.mem_map.mp ht
        obtain ⟨p, hp, rfl⟩ := List.mem_map.mp hv
        exact emitScalar_no_nlcr ((wfTable_record hwf r hr).2 p hp).2 c hct

theorem parseBlockRows_emit {fields : List String}
    {rs : List (List (String × Value))}
    (h : ∀ r ∈ rs, r.map Prod.fst = fields ∧ r ≠ [] ∧
      ∀ p ∈ r, scalarOK p.2 = true) :
    parseBlockRows 2 fields (rs.map rowLineOf) = .ok rs := by
  induction rs with
  | nil => rfl
  | cons r rs ih =>
    obtain ⟨hkeys, hne, hsc⟩ := h r (by simp)
    unfold parseBlockRows
    simp only [List.map_cons, List.mapM_cons]
    have hk : fields.length = (r.map Prod.snd).length := by
      rw [← hkeys]; simp
    have hrow : parseRowL 2 fields.length (rowLineOf r) =
        .ok (r.map Prod.snd) := by
      rw [hk]
      unfold rowLineOf
      exact parseRow_emit (by simpa using hne)
        (fun v hv => by
          obtain ⟨p, hp, rfl⟩ := List.mem_map.mp hv
          exact hsc p hp)
    rw [hrow]
    have ih' := ih (fun x hx => h x (by simp [hx]))
    unfold parseBlockRows at ih'
    rw [show (Except.ok (r.map Prod.snd)).map (fields.zip ·) =
      Except.ok (fields.zip (r.map Prod.snd)) from rfl]
    rw [show fields.zip (r.map Prod.snd) = r from by
      rw [← hkeys, zip_fst_snd]]
    rw [ih']
    rfl

/-- Parsing one emitted block consumes exactly its lines and recovers the
records. -/
theorem parseBlockAt_emit {name : String}
    {recs : List (List (String × Value))} (hn : isIdentL name.data = true)
    (hwf : wfTable recs = true) {rest' : List (List Char)}
    (hr : ∀ x, rest'.head? = some x → x.head?.getD 'x' ≠ ' ') :
    parseBlockAt 2
      (emitHeaderL name.data (natToChars recs.length)
        (((recs.headD []).map Prod.fst).map String.data))
      (recs.map rowLineOf ++ rest') = .ok ((name, recs), rest') := by
  have hfOK : ∀ f ∈ ((recs.headD []).map Prod.fst).map String.data,
      fieldOK f = true := by
    intro f hf
    obtain ⟨k, hk, rfl⟩ := List.mem_map.mp hf
    obtain ⟨p, hp, rfl⟩ := List.mem_map.mp hk
    rcases recs with _ | ⟨r0, rr⟩
    · simp at hp
    · exact ((wfTable_record hwf r0 (by simp)).2 p hp).1
  have hheader := parseHeaderL_emit recs.length hn hfOK
  have hspan : (recs.map rowLineOf ++ rest').span
      (fun x => x.head?.getD 'x' = ' ') = (recs.map rowLineOf, rest') := by
    refine span_append_gen _ _ ?_ (fun x hx => by simpa using hr x hx)
    intro l hl
    obtain ⟨r, hrr, rfl⟩ := List.mem_map.mp hl
    rfl
  unfold parseBlockAt
  rw [hheader, ok_bind]
  simp only [hspan]
  rw [if_pos (by simp)]
  rw [map_mk_data]
  rw [parseBlockRows_emit (fun r hrr =>
    ⟨wfTable_uniform hwf r hrr, (wfTable_record hwf r hrr).1,
      fun p hp => ((wfTable_record hwf r hrr).2 p hp).2⟩)]
  rfl

theorem identStart_not_ws {c : Char} (h : isIdentStart c = true) :
    isWsCh c = false := by
  simp only [isIdentStart, Bool.or_eq_true, Bool.and_eq_true,
    decide_eq_true_eq] at h
  have hne : c ≠ ' ' ∧ c ≠ '\t' ∧ c ≠ '\r' ∧ c ≠ '\n' := by
    rcases h with (h | h) | h
    · refine ⟨?_, ?_, ?_, ?_⟩ <;> (intro he; subst he; exact absurd h (by decide))
    · refine ⟨?_, ?_, ?_, ?_⟩ <;> (intro he; subst he; exact absurd h (by decide))
    · subst h; exact ⟨by decide, by decide, by decide, by decide⟩
  simp [isWsCh, hne.1, hne.2.1, hne.2.2.1, hne.2.2.2]

theorem flatten_map_flatten {α β : Type} (g : List α → List β)
    (ls : List (List (List α))) :
    (ls.flatten.map g).flatten = (ls.map (fun b => (b.map g).flatten)).flatten := by
  induction ls with
  | nil => rfl
  | cons b bs ih =>
    simp only [List.flatten_cons, List.map_append, List.flatten_append,
      List.map_cons, ih]

/-- The well-formed-entry shape: an identifier name over a uniform table. -/
theorem wfEntry_shape {p : String × Value} (h : wfEntry p = true) :
    isIdentL p.1.data = true ∧ ∃ elems recs, p.2 = .arr elems ∧
      asRecords elems = some recs ∧ wfTable recs = true ∧
      entryRecs p = recs := by
  rcases p with ⟨k, v⟩
  simp only [wfEntry, Bool.and_eq_true] at h
  refine ⟨h.1, ?_⟩
  cases v with
  | arr elems =>
    have h2 : (match asRecords elems with
      | some recs => wfTable recs
      | none => false) = true := h.2
    rcases hrec : asRecords elems with _ | recs
    · rw [hrec] at h2
      exact absurd h2 (by simp)
    · rw [hrec] at h2
      refine ⟨elems, recs, rfl, hrec, h2, ?_⟩
      have h3 : entryRecs (k, Value.arr elems) =
        (asRecords elems).getD [] := rfl
      rw [h3, hrec]
      rfl
  | null => exact absurd (show (false = true) from h.2) (by simp)
  | bool b => exact absurd (show (false = true) from h.2) (by simp)
  | int n => exact absurd (show (false = true) from h.2) (by simp)
  | float l => exact absurd (show (false = true) from h.2) (by simp)
  | str t => exact absurd (show (false = true) from h.2) (by simp)
  | obj o => exact absurd (show (false = true) from h.2) (by simp)

theorem emitDoc_mapM {entries : List (String × Value)}
    (h : ∀ p ∈ entries, wfEntry p = true) :
    (entries.mapM (fun (p : String × Value) =>
      match p.2 with
      | .arr elems =>
        match asRecords elems with
        | some recs => emitArrayBlock 2 p.1.data recs
        | none => .error .unsupportedValue
      | _ => .error .unsupportedValue)) =
    .ok (entries.map (fun p =>
      ((blockLinesOf p.1 (entryRecs p)).map (· ++ ['\n'])).flatten)) := by
  induction entries with
  | nil => rfl
  | cons p ps ih =>
    obtain ⟨hn, elems, recs, hv, hrec, hwt, hent⟩ := wfEntry_shape (h p (by simp))
    simp only [List.mapM_cons]
    have hstep : (match p.2 with
      | Value.arr elems =>
        (match asRecords elems with
         | some recs => emitArrayBlock 2 p.1.data recs
         | none => Except.error SErr.unsupportedValue)
      | _ => Except.error SErr.unsupportedValue) =
      emitArrayBlock 2 p.1.data recs := by
      rw [hv]
      have h1 : (match Value.arr elems with
        | Value.arr es =>
          (match asRecords es with
           | some recs => emitArrayBlock 2 p.1.data recs
           | none => Except.error SErr.unsupportedValue)
        | _ => Except.error SErr.unsupportedValue) =
        (match asRecords elems with
         | some recs => emitArrayBlock 2 p.1.data recs
         | none => Except.error SErr.unsupportedValue) := rfl
      rw [h1, hrec]
    rw [hstep]
    rw [emitArrayBlock_ok p.1 hwt, ih (fun x hx => h x (by simp [hx]))]
    simp only [List.map_cons, hent]
    rfl

theorem emitDocL_ok {entries : List (String × Value)}
    (h : ∀ p ∈ entries, wfEntry p = true) :
    emitDocL (.obj entries) =
      .ok (((docLinesOf entries).map (· ++ ['\n'])).flatten) := by
  have h0 : emitDocL (.obj entries) =
      (entries.mapM (fun (p : String × Value) =>
        match p.2 with
        | .arr elems =>
          match asRecords elems with
          | some recs => emitArrayBlock 2 p.1.data recs
          | none => .error .unsupportedValue
        | _ => .error .unsupportedValue)).map List.flatten := rfl
  rw [h0, emitDoc_mapM h]
  unfold docLinesOf
  rw [show (Except.ok (ε := SErr) (entries.map (fun p =>
      ((blockLinesOf p.1 (entryRecs p)).map (· ++ ['\n'])).flatten))).map
      List.flatten = .ok ((entries.map (fun p =>
      ((blockLinesOf p.1 (entryRecs p)).map (· ++ ['\n'])).flatten)).flatten)
    from rfl]
  rw [flatten_map_flatten]
  rw [List.map_map]
  rfl

theorem stripCR_id {l : List Char} (h : ∀ c ∈ l, c ≠ '\r') : stripCR l = l := by
  unfold stripCR
  rw [if_neg]
  intro he
  exact absurd (List.mem_of_mem_getLast? he) (by
    intro hm
    exact (h _ hm) rfl)

theorem docLinesOf_chars {entries : List (String × Value)}
    (h : ∀ p ∈ entries, wfEntry p = true) :
    ∀ l ∈ docLinesOf entries, ∀ c ∈ l, c ≠ '\n' ∧ c ≠ '\r' := by
  intro l hl
  unfold docLinesOf at hl
  obtain ⟨bls, hbls, hlb⟩ := List.mem_flatten.mp hl
  obtain ⟨p, hp, rfl⟩ := List.mem_map.mp hbls
  obtain ⟨hn, elems, recs, hv, hrec, hwt, hent⟩ := wfEntry_shape (h p hp)
  rw [hent] at hlb
  exact blockLinesOf_chars hn hwt l hlb

theorem blockLinesOf_nonblank {name : String}
    {recs : List (List (String × Value))} (hn : isIdentL name.data = true)
    (hwf : wfTable recs = true) :
    ∀ l ∈ blockLinesOf name recs, isBlankL l = false := by
  intro l hl
  rcases List.mem_cons.mp hl with h | h
  · subst h
    obtain ⟨c, rest, hcr, hcs⟩ := @header_head _ (natToChars recs.length)
      (((recs.headD []).map Prod.fst).map String.data) hn
    rw [hcr]
    exact isBlankL_false (by simp) (identStart_not_ws hcs)
  · obtain ⟨r, hr, rfl⟩ := List.mem_map.mp h
    have hrec := wfTable_record hwf r hr
    obtain ⟨c, rest, hcr, hcs⟩ := @rowContent_head (r.map Prod.snd) (by simpa using hrec.1)
      (fun v hv => by
        obtain ⟨p, hp, rfl⟩ := List.mem_map.mp hv
        exact (hrec.2 p hp).2)
    refine isBlankL_false (c := c) ?_ hcs
    unfold rowLineOf
    rw [hcr]
    simp

theorem docLinesOf_nonblank {entries : List (String × Value)}
    (h : ∀ p ∈ entries, wfEntry p = true) :
    ∀ l ∈ docLinesOf entries, isBlankL l = false := by
  intro l hl
  unfold docLinesOf at hl
  obtain ⟨bls, hbls, hlb⟩ := List.mem_flatten.mp hl
  obtain ⟨p, hp, rfl⟩ := List.mem_map.mp hbls
  obtain ⟨hn, elems, recs, hv, hrec, hwt, hent⟩ := wfEntry_shape (h p hp)
  rw [hent] at hlb
  exact blockLinesOf_nonblank hn hwt l hlb

/-- The emitted document splits back into its lines plus one empty chunk. -/
theorem linesOf_emitted {entries : List (String × Value)}
    (h : ∀ p ∈ entries, wfEntry p = true) :
    linesOf (((docLinesOf entries).map (· ++ ['\n'])).flatten) =
      docLinesOf entries ++ [[]] := by
  unfold linesOf
  rw [splitOnC_join_map '\n' (docLinesOf entries)
    (fun l hl x hx => (docLinesOf_chars h l hl x hx).1)]
  rw [List.map_append]
  rw [show ([[]] : List (List Char)).map stripCR = [[]] from rfl]
  rw [List.map_congr_left (fun l hl =>
    stripCR_id (fun c hc => (docLinesOf_chars h l hl c hc).2))]
  simp

theorem docLinesOf_cons (p : String × Value) (ps : List (String × Value)) :
    docLinesOf (p :: ps) =
      blockLinesOf p.1 (entryRecs p) ++ docLinesOf ps := by
  unfold docLinesOf
  simp

/-- The first line after an emitted document fragment never looks like a
body row: it is either the next block's header or the final empty chunk. -/
theorem docLines_tail_head {entries : List (String × Value)}
    (h : ∀ p ∈ entries, wfEntry p = true) :
    ∀ x, (docLinesOf entries ++ [[]]).head? = some x →
      x.head?.getD 'x' ≠ ' ' := by
  intro x hx
  cases entries with
  | nil =>
    rw [show docLinesOf [] = [] from rfl] at hx
    simp only [List.nil_append, List.head?_cons] at hx
    injection hx with hx
    subst hx
    simp
  | cons p ps =>
    obtain ⟨hn, elems, recs, hv, hrec, hwt, hent⟩ := wfEntry_shape (h p (by simp))
    rw [docLinesOf_cons, hent] at hx
    obtain ⟨c, crest, hcr, hcs⟩ := @header_head _
      (natToChars recs.length)
      (((recs.headD []).map Prod.fst).map String.data) hn
    rw [show blockLinesOf p.1 recs =
      emitHeaderL p.1.data (natToChars recs.length)
        (((recs.headD []).map Prod.fst).map String.data) :: recs.map rowLineOf
      from rfl, hcr] at hx
    simp only [List.cons_append, List.append_assoc, List.head?_cons] at hx
    injection hx with hx
    subst hx
    simp only [List.head?_cons, Option.getD_some]
    intro he
    rw [he] at hcs
    exact absurd hcs (by decide)

/-- Parsing the emitted lines of a well-formed document recovers every
block, in order. -/
theorem parseBlocksF_emit : ∀ (entries : List (String × Value)) (fuel : Nat),
    (∀ p ∈ entries, wfEntry p = true) →
    (docLinesOf entries).length < fuel →
    parseBlocksF fuel 2 (docLinesOf entries ++ [[]]) =
      .ok (entries.map (fun p => (p.1, entryRecs p))) := by
  intro entries
  induction entries with
  | nil =>
    intro fuel _ hfuel
    rcases fuel with _ | f
    · omega
    · show parseBlocksF (f + 1) 2 ([] ++ [[]]) = _
      rw [List.nil_append]
      rw [show parseBlocksF (f + 1) 2 [[]] =
        (if isBlankL [] then parseBlocksF f 2 []
         else do
           let (blk, rest2) ← parseBlockAt 2 [] []
           let tail ← parseBlocksF f 2 rest2
           .ok (blk :: tail)) from rfl]
      rw [if_pos (by decide)]
      rw [show parseBlocksF f 2 [] =
        .ok ([] : List (String × List (List (String × Value)))) from by
          cases f <;> rfl]
      rfl
  | cons p ps ih =>
    intro fuel hwf hfuel
    obtain ⟨hn, elems, recs, hv, hrec, hwt, hent⟩ := wfEntry_shape (hwf p (by simp))
    rw [docLinesOf_cons, hent]
    rw [docLinesOf_cons, hent] at hfuel
    rcases fuel with _ | f
    · simp at hfuel
    · rw [show blockLinesOf p.1 recs =
        emitHeaderL p.1.data (natToChars recs.length)
          (((recs.headD []).map Prod.fst).map String.data) :: recs.map rowLineOf
        from rfl]
      have hlist : (emitHeaderL p.1.data (natToChars recs.length)
          (((recs.headD []).map Prod.fst).map String.data) ::
          recs.map rowLineOf ++ docLinesOf ps) ++ [[]] =
          emitHeaderL p.1.data (natToChars recs.length)
            (((recs.headD []).map Prod.fst).map String.data) ::
          (recs.map rowLineOf ++ (docLinesOf ps ++ [[]])) := by
        simp
      rw [hlist]
      obtain ⟨c, crest, hcr, hcs⟩ := @header_head _
        (natToChars recs.length)
        (((recs.headD []).map Prod.fst).map String.data) hn
      have hnb : isBlankL (emitHeaderL p.1.data (natToChars recs.length)
          (((recs.headD []).map Prod.fst).map String.data)) = false := by
        rw [hcr]
        exact isBlankL_false (by simp) (identStart_not_ws hcs)
      rw [show parseBlocksF (f + 1) 2
          (emitHeaderL p.1.data (natToChars recs.length)
            (((recs.headD []).map Prod.fst).map String.data) ::
            (recs.map rowLineOf ++ (docLinesOf ps ++ [[]]))) =
          (if isBlankL (emitHeaderL p.1.data (natToChars recs.length)
            (((recs.headD []).map Prod.fst).map String.data)) then
            parseBlocksF f 2 (recs.map rowLineOf ++ (docLinesOf ps ++ [[]]))
          else do
            let (blk, rest2) ← parseBlockAt 2
              (emitHeaderL p.1.data (natToChars recs.length)
                (((recs.headD []).map Prod.fst).map String.data))
              (recs.map rowLineOf ++ (docLinesOf ps ++ [[]]))
            let tail ← parseBlocksF f 2 rest2
            .ok (blk :: tail)) from rfl]
      rw [if_neg (by rw [hnb]; exact Bool.false_ne_true)]
      rw [parseBlockAt_emit hn hwt
        (docLines_tail_head (fun x hx => hwf x (by simp [hx])))]
      change (do
        let tail ← parseBlocksF f 2 (docLinesOf ps ++ [[]])
        Except.ok ((p.1, recs) :: tail)) = _
      rw [ih f (fun x hx => hwf x (by simp [hx])) (by
        have hb : (blockLinesOf p.1 recs).length = recs.length + 1 := by
          simp [blockLinesOf]
        simp only [List.length_append] at hfuel
        omega)]
      rw [ok_bind]
      simp only [List.map_cons, hent]

theorem map_entry_assemble {entries : List (String × Value)}
    (h : ∀ p ∈ entries, wfEntry p = true) :
    (entries.map (fun p => (p.1, entryRecs p))).map
      (fun b => (b.1, Value.arr (b.2.map Value.obj))) = entries := by
  induction entries with
  | nil => rfl
  | cons p ps ih =>
    obtain ⟨hn, elems, recs, hv, hrec, hwt, hent⟩ := wfEntry_shape (h p (by simp))
    simp only [List.map_cons]
    rw [ih (fun x hx => h x (by simp [hx]))]
    rw [hent, asRecords_map_obj hrec, ← hv]

/-- The first line of a well-formed document's emission is a recognizable
header. -/
theorem docLines_shape {entries : List (String × Value)} (hne : entries ≠ [])
    (hall : ∀ p ∈ entries, wfEntry p = true) :
    ∃ hdr rest, docLinesOf entries = hdr :: rest ∧
      exceptOk (parseHeaderL hdr) = true := by
  rcases entries with _ | ⟨e, es⟩
  · exact absurd rfl hne
  · obtain ⟨hn, elems, recs, hv, hrec, hwt, hentr⟩ :=
      wfEntry_shape (hall e (by simp))
    refine ⟨emitHeaderL e.1.data (natToChars recs.length)
      (((recs.headD []).map Prod.fst).map String.data),
      recs.map rowLineOf ++ docLinesOf es, ?_, ?_⟩
    · rw [docLinesOf_cons, hentr]
      rfl
    · rw [parseHeaderL_emit recs.length hn (fun f hf => by
        obtain ⟨k, hk, rfl⟩ := List.mem_map.mp hf
        obtain ⟨p, hp, rfl⟩ := List.mem_map.mp hk
        rcases recs with _ | ⟨r0, rr⟩
        · simp at hp
        · exact ((wfTable_record hwt r0 (by simp)).2 p hp).1)]
      rfl

/-- Full document round trip: parsing inverts serialization on well-formed
tabular documents. -/
theorem roundtrip_wf {d : Value} (h : wfDoc d = true) :
    ∃ s : String, stringify d = .ok s ∧ parse s = .ok d := by
  rcases d with _ | _ | _ | _ | _ | _ | entries
  case null => simp [wfDoc] at h
  case bool => simp [wfDoc] at h
  case int => simp [wfDoc] at h
  case float => simp [wfDoc] at h
  case str => simp [wfDoc] at h
  case arr => simp [wfDoc] at h
  case obj =>
  simp only [wfDoc, Bool.and_eq_true] at h
  obtain ⟨⟨hne, hall⟩, hnd⟩ := h
  have hall' : ∀ p ∈ entries, wfEntry p = true := List.all_eq_true.mp hall
  have hnenil : entries ≠ [] := by
    intro he
    rw [he] at hne
    simp at hne
  refine ⟨String.mk (((docLinesOf entries).map (· ++ ['\n'])).flatten), ?_, ?_⟩
  · unfold stringify
    rw [emitDocL_ok hall']
    rfl
  · have hstep : parse (String.mk (((docLinesOf entries).map
        (· ++ ['\n'])).flatten)) =
      parseDocL (((docLinesOf entries).map (· ++ ['\n'])).flatten) := rfl
    rw [hstep]
    have hnb : nbLines (((docLinesOf entries).map (· ++ ['\n'])).flatten) =
        docLinesOf entries := by
      unfold nbLines
      rw [linesOf_emitted hall', List.filter_append]
      rw [List.filter_eq_self.mpr (fun l hl => by
        simp [docLinesOf_nonblank hall' l hl])]
      rw [show List.filter (fun l => !isBlankL l) [[]] = ([] : List (List Char))
        from by decide]
      simp
    obtain ⟨hdr, hrest, hdl, hok⟩ := docLines_shape hnenil hall'
    unfold parseDocL
    rw [hnb]
    rw [if_neg (by rw [hdl]; simp)]
    rw [if_neg (by
      rw [hdl, show (hdr :: hrest).headD [] = hdr from rfl, hok]
      simp)]
    unfold parseBlocksTop
    rw [linesOf_emitted hall']
    have hpb := parseBlocksF_emit entries
      ((docLinesOf entries ++ [[]]).length + 1) hall'
      (by simp [List.length_append]; omega)
    rw [hpb]
    rw [ok_bind]
    rw [if_pos (by
      rw [List.map_map]
      rw [show (Prod.fst ∘ fun p => (p.1, entryRecs p)) =
        (Prod.fst : String × Value → String) from rfl]
      exact of_decide_eq_true hnd)]
    rw [map_entry_assemble hall']

end Toon

namespace Toon

theorem structural_false_ne {c : Char} (h : isStructuralCh c = false) :
    c ≠ ',' ∧ c ≠ ':' ∧ c ≠ '[' ∧ c ≠ ']' ∧ c ≠ '{' ∧ c ≠ '}' ∧ c ≠ '"' := by
  simp only [isStructuralCh, Bool.or_eq_false_iff, decide_eq_false_iff_not] at h
  exact ⟨h.1.1.1.1.1.1, h.1.1.1.1.1.2, h.1.1.1.1.2, h.1.1.1.2, h.1.1.2, h.1.2, h.2⟩

/-- A line containing no `[` is never a header (*InvalidHeader*). -/
theorem parseHeaderL_no_bracket {t : List Char} (h : ∀ c ∈ t, c ≠ '[') :
    parseHeaderL t = .error .invalidHeader := by
  have hspan : t.span (fun c => !(c = '[')) = (t, []) :=
    span_all (fun c hc => by simp [h c hc])
  unfold parseHeaderL
  rw [hspan]
  cases hid : isIdentL t
  · rw [if_neg (by simp [hid])]
  · rw [if_pos (by simp [hid])]

/-- A quoted token is never a header. -/
theorem parseHeaderL_quoted (b : List Char) :
    parseHeaderL (quoteL b) = .error .invalidHeader := by
  have hspan : (quoteL b).span (fun c => !(c = '[')) =
      ('"' :: (escapeL b ++ ['"']).takeWhile (fun c => !(c = '[')),
        (escapeL b ++ ['"']).dropWhile (fun c => !(c = '['))) := by
    rw [show quoteL b = '"' :: (escapeL b ++ ['"']) from rfl,
      List.span_eq_take_drop, List.takeWhile_cons_of_pos (by decide),
      List.dropWhile_cons_of_pos (by decide)]
  unfold parseHeaderL
  rw [hspan, if_neg (by simp [isIdentL, isIdentStart])]

theorem floatChars_ne_bracket {c : Char} (h : floatChars c = true) : c ≠ '[' := by
  simp only [floatChars, Bool.or_eq_true, decide_eq_true_eq] at h
  rcases h with ((((h | h) | h) | h) | h) | h
  · exact (digitCh_ne h).2.2.2.2
  all_goals subst h
  all_goals decide

/-- No emitted scalar token is mistakable for a block header. -/
theorem parseHeaderL_emitScalar {v : Value} (h : scalarOK v = true) :
    parseHeaderL (emitScalarL v) = .error .invalidHeader := by
  cases v with
  | null => rfl
  | bool b => cases b <;> rfl
  | int n =>
    refine parseHeaderL_no_bracket (fun c hc => ?_)
    rcases isIntLit_chars (isIntLit_intToChars n) c hc with h1 | h1
    · exact (digitCh_ne h1).2.2.2.2
    · subst h1; decide
  | float lit =>
    have hfl : isFloatLit lit.data = true := by simpa [scalarOK] using h
    refine parseHeaderL_no_bracket (fun c hc => ?_)
    exact floatChars_ne_bracket (isFloatLit_chars hfl c
      (by simpa [emitScalarL] using hc))
  | str s =>
    show parseHeaderL (if needsQuotingL s.data then quoteL s.data else s.data) = _
    by_cases hq : needsQuotingL s.data = true
    · rw [if_pos hq]
      exact parseHeaderL_quoted s.data
    · rw [if_neg hq]
      obtain ⟨-, h2, -⟩ := needsQuoting_parts (by simpa using hq)
      refine parseHeaderL_no_bracket (fun c hc => ?_)
      have hp : isStructuralCh c = false := by
        by_cases hx : isStructuralCh c = true
        · have : s.data.any (fun x => isStructuralCh x || isCtlCh x) = true :=
            List.any_eq_true.mpr ⟨c, hc, by simp [hx]⟩
          rw [h2] at this; exact absurd this (by simp)
        · simpa using hx
      exact (structural_false_ne hp).2.2.1
  | arr elems => simp [scalarOK] at h
  | obj entries => simp [scalarOK] at h

/-- A document consisting of one emitted scalar parses back to that scalar. -/
theorem parse_scalar_doc {v : Value} (h : scalarOK v = true) :
    parse (String.mk (emitScalarL v)) = .ok v := by
  show parseDocL (emitScalarL v) = .ok v
  obtain ⟨c0, rest0, hhead, hws⟩ := emitScalar_head h
  have hnl := emitScalar_no_nlcr h
  have hlines : linesOf (emitScalarL v) = [emitScalarL v] := by
    unfold linesOf
    rw [splitOnC_free '\n' _ (fun x hx => (hnl x hx).1)]
    rw [show List.map stripCR [emitScalarL v] = [stripCR (emitScalarL v)] from rfl,
      stripCR_id (fun x hx => (hnl x hx).2)]
  have hbl : isBlankL (emitScalarL v) = false :=
    isBlankL_false (hhead ▸ List.mem_cons_self c0 rest0) hws
  have hnb : nbLines (emitScalarL v) = [emitScalarL v] := by
    unfold nbLines
    rw [hlines]
    simp [List.filter, hbl]
  unfold parseDocL
  rw [hnb]
  rw [if_neg (by simp)]
  rw [if_pos (by
    rw [show ([emitScalarL v] : List (List Char)).headD [] = emitScalarL v from rfl,
      parseHeaderL_emitScalar h]
    rfl)]
  rw [show ([emitScalarL v] : List (List Char)).headD [] = emitScalarL v from rfl]
  exact parse_emit_scalar h

end Toon

namespace Toon

def uniformFlat : Value → Bool
  | .obj entries => entries.all (fun p =>
      match p.2 with
      | .arr elems =>
        (match asRecords elems with
         | some recs => recs.all (fun r =>
             (r.map Prod.fst == (recs.headD []).map Prod.fst) &&
               r.all (fun q => scalarOK q.2))
         | none => false)
      | _ => false)
  | _ => false

def Cex1 : Value := .obj [("items", .arr [.obj [("a,b", .int 1)]])]

def DocU : Value := .obj [("users", .arr [
  .obj [("id", .int 1), ("name", .str "Alice")],
  .obj [("id", .int 2), ("name", .str "Bob")]])]

/-- C1 -/
theorem tabular_round_trip {d : Value} (h : wfDoc d = true) :
    ∃ s : String, stringify d = .ok s ∧ parse s = .ok d := roundtrip_wf h

theorem tabular_round_trip_witness :
    wfDoc DocU = true ∧
      ∃ s : String, stringify DocU = .ok s ∧ parse s = .ok DocU :=
  ⟨rfl, tabular_round_trip (d := DocU) rfl⟩

/-- A single empty record: satisfies the original claim's hypotheses but
its blank row cannot be re-read (the §6 grammar wants at least one scalar
per row). -/
def Cex1b : Value := .obj [("items", .arr [.obj []])]

theorem tabular_round_trip_cex :
    (uniformFlat Cex1 = true ∧
      stringify Cex1 = .ok "items[1]\x7ba,b\x7d:\n  1\n" ∧
      parse "items[1]\x7ba,b\x7d:\n  1\n" = .error .fieldCountMismatch) ∧
    (uniformFlat (.obj []) = true ∧
      stringify (.obj []) = .ok "" ∧
      parse "" = .ok .null) ∧
    (uniformFlat Cex1b = true ∧
      stringify Cex1b = .ok "items[1]\x7b\x7d:\n  \n" ∧
      parse "items[1]\x7b\x7d:\n  \n" = .error .fieldCountMismatch) :=
  ⟨⟨rfl, rfl, rfl⟩, ⟨rfl, rfl, rfl⟩, ⟨rfl, rfl, rfl⟩⟩

/-- C4 -/
theorem ambiguous_string_quoted_round_trip {s : String}
    (h : isAmbiguousL s.data = true) :
    stringify (.str s) = .ok (String.mk (quoteL s.data)) ∧
      parse (String.mk (quoteL s.data)) = .ok (.str s) := by
  have hq : needsQuotingL s.data = true := by
    unfold needsQuotingL
    rw [h]
    simp
  have hemit : emitScalarL (.str s) = quoteL s.data := by
    show (if needsQuotingL s.data then quoteL s.data else s.data) = _
    rw [if_pos hq]
  constructor
  · show (emitDocL (.str s)).map String.mk = _
    rw [show emitDocL (.str s) = .ok (emitScalarL (.str s)) from rfl, hemit]
    rfl
  · rw [← hemit]
    exact parse_scalar_doc (v := .str s) rfl

theorem ambiguous_string_quoted_witness :
    (isAmbiguousL ("true".data) = true ∧
      stringify (.str "true") = .ok "\"true\"" ∧
      parse "\"true\"" = .ok (.str "true")) ∧
    (isAmbiguousL ("null".data) = true ∧
      stringify (.str "null") = .ok "\"null\"" ∧
      parse "\"null\"" = .ok (.str "null")) ∧
    (isAmbiguousL ("123".data) = true ∧
      stringify (.str "123") = .ok "\"123\"" ∧
      parse "\"123\"" = .ok (.str "123")) ∧
    (isAmbiguousL ("false".data) = true ∧
      stringify (.str "false") = .ok "\"false\"" ∧
      parse "\"false\"" = .ok (.str "false")) :=
  ⟨⟨rfl, (ambiguous_string_quoted_round_trip (s := "true") rfl).1,
      (ambiguous_string_quoted_round_trip (s := "true") rfl).2⟩,
    ⟨rfl, (ambiguous_string_quoted_round_trip (s := "null") rfl).1,
      (ambiguous_string_quoted_round_trip (s := "null") rfl).2⟩,
    ⟨rfl, (ambiguous_string_quoted_round_trip (s := "123") rfl).1,
      (ambiguous_string_quoted_round_trip (s := "123") rfl).2⟩,
    ⟨rfl, (ambiguous_string_quoted_round_trip (s := "false") rfl).1,
      (ambiguous_string_quoted_round_trip (s := "false") rfl).2⟩⟩

end Toon

namespace Toon

/-- The characters of an emitted header line: never a newline or return. -/
theorem emitHeader_no_nlcr {name : List Char} {fields : List (List Char)}
    (hn : isIdentL name = true) (hf : ∀ f ∈ fields, fieldOK f = true) (N : Nat) :
    ∀ c ∈ emitHeaderL name (natToChars N) fields, c ≠ '\n' ∧ c ≠ '\r' := by
  intro c hc
  rw [emitHeaderL_eq] at hc
  rcases List.mem_append.mp hc with h1 | h1
  · have := identCh_facts (identL_chars hn c h1)
    exact ⟨this.2.2.2.2.2.2.1, this.2.2.2.2.2.2.2.1⟩
  · rcases List.mem_cons.mp h1 with h2 | h2
    · subst h2; exact ⟨by decide, by decide⟩
    · rcases List.mem_append.mp h2 with h3 | h3
      · have := digitCh_ne (natToChars_digits h3)
        exact ⟨this.2.2.1, this.2.2.2.1⟩
      · rcases List.mem_cons.mp h3 with h4 | h4
        · subst h4; exact ⟨by decide, by decide⟩
        · rcases List.mem_cons.mp h4 with h5 | h5
          · subst h5; exact ⟨by decide, by decide⟩
          · rcases List.mem_append.mp h5 with h6 | h6
            · rcases mem_intercalateC h6 with h7 | ⟨f, hfm, hcf⟩
              · simp at h7; subst h7; exact ⟨by decide, by decide⟩
              · have := fieldOK_chars (hf f hfm) c hcf
                exact ⟨this.2.2.1, this.2.2.2⟩
            · fin_cases h6 <;> exact ⟨by decide, by decide⟩

/-- A declared numeric arity that disagrees with the body row count is a
*RowCountMismatch* at the block level. -/
theorem parseBlockAt_count_mismatch {name : List Char} {N : Nat}
    {fields rows : List (List Char)}
    (hn : isIdentL name = true) (hf : ∀ f ∈ fields, fieldOK f = true)
    (hrows : ∀ r ∈ rows, r.head? = some ' ')
    (hne : rows.length ≠ N) {rest' : List (List Char)}
    (hr : ∀ x, rest'.head? = some x → x.head?.getD 'x' ≠ ' ') :
    parseBlockAt 2 (emitHeaderL name (natToChars N) fields) (rows ++ rest') =
      .error .rowCountMismatch := by
  have hspan : (rows ++ rest').span (fun x => x.head?.getD 'x' = ' ') =
      (rows, rest') := by
    refine span_append_gen _ _ ?_ (fun x hx => by simpa using hr x hx)
    intro l hl
    simp [hrows l hl]
  unfold parseBlockAt
  rw [parseHeaderL_emit N hn hf, ok_bind]
  simp only [hspan]
  rw [if_neg hne]

end Toon

namespace Toon

/-- C7 -/
theorem row_count_mismatch_parse (name : List Char) (N : Nat)
    (fields rows : List (List Char))
    (hn : isIdentL name = true) (hf : ∀ f ∈ fields, fieldOK f = true)
    (hrows : ∀ r ∈ rows, r.head? = some ' ' ∧ ∀ c ∈ r, c ≠ '\n' ∧ c ≠ '\r')
    (hne : rows.length ≠ N) :
    parse (String.mk (((emitHeaderL name (natToChars N) fields :: rows).map
      (· ++ ['\n'])).flatten)) = .error .rowCountMismatch := by
  show parseDocL (((emitHeaderL name (natToChars N) fields :: rows).map
    (· ++ ['\n'])).flatten) = .error .rowCountMismatch
  obtain ⟨c0, rest0, hhead, hstart⟩ :=
    @header_head _ (natToChars N) fields hn
  have hnl : ∀ l ∈ (emitHeaderL name (natToChars N) fields :: rows),
      ∀ c ∈ l, c ≠ '\n' ∧ c ≠ '\r' := by
    intro l hl
    rcases List.mem_cons.mp hl with h | h
    · subst h; exact emitHeader_no_nlcr hn hf N
    · exact (hrows l h).2
  have hlines : linesOf (((emitHeaderL name (natToChars N) fields :: rows).map
      (· ++ ['\n'])).flatten) =
      emitHeaderL name (natToChars N) fields :: (rows ++ [[]]) := by
    unfold linesOf
    rw [splitOnC_join_map '\n' _ (fun l hl x hx => (hnl l hl x hx).1)]
    rw [List.map_append]
    rw [show ([[]] : List (List Char)).map stripCR = [[]] from rfl]
    rw [List.map_congr_left (fun l hl => stripCR_id (fun c hc =>
      (hnl l hl c hc).2))]
    simp
  have hbl : isBlankL (emitHeaderL name (natToChars N) fields) = false :=
    isBlankL_false (hhead ▸ List.mem_cons_self c0 rest0) (identStart_not_ws hstart)
  have hnb : nbLines (((emitHeaderL name (natToChars N) fields :: rows).map
      (· ++ ['\n'])).flatten) =
      emitHeaderL name (natToChars N) fields ::
        (rows ++ [[]]).filter (fun l => !isBlankL l) := by
    unfold nbLines
    rw [hlines, List.filter_cons_of_pos (by rw [hbl]; rfl)]
  unfold parseDocL
  rw [hnb]
  rw [if_neg (by simp)]
  rw [if_neg (by
    simp [List.headD_cons, parseHeaderL_emit N hn hf, exceptOk])]
  unfold parseBlocksTop
  rw [hlines]
  rw [show parseBlocksF ((emitHeaderL name (natToChars N) fields ::
      (rows ++ [[]])).length + 1) 2
      (emitHeaderL name (natToChars N) fields :: (rows ++ [[]])) =
      (if isBlankL (emitHeaderL name (natToChars N) fields) then
        parseBlocksF ((emitHeaderL name (natToChars N) fields ::
          (rows ++ [[]])).length) 2 (rows ++ [[]])
      else do
        let (blk, rest2) ← parseBlockAt 2
          (emitHeaderL name (natToChars N) fields) (rows ++ [[]])
        let tail ← parseBlocksF ((emitHeaderL name (natToChars N) fields ::
          (rows ++ [[]])).length) 2 rest2
        .ok (blk :: tail)) from rfl]
  rw [if_neg (by rw [hbl]; exact Bool.false_ne_true)]
  rw [parseBlockAt_count_mismatch hn hf (fun r hr => (hrows r hr).1) hne
    (fun x hx => by simp at hx; subst hx; decide)]
  rfl

theorem row_count_mismatch_witness :
    parse "users[2]\x7bid,name\x7d:\n  1,Alice\n" = .error .rowCountMismatch ∧
    parse "users[2]\x7bid,name\x7d:\n  1,Alice" = .error .rowCountMismatch :=
  ⟨row_count_mismatch_parse "users".data 2 ["id".data, "name".data]
      ["  1,Alice".data] (by decide) (by decide) (by decide) (by decide), rfl⟩

end Toon

namespace Toon

/-- A record whose ordered key list differs from the first record's makes
the block emitter fail (*NonUniformArray*), before any row is rendered. -/
theorem emitArrayBlock_non_uniform {recs : List (List (String × Value))}
    (indent : Nat) (name : List Char)
    (h : ∃ r ∈ recs, r.map Prod.fst ≠ (recs.headD []).map Prod.fst) :
    emitArrayBlock indent name recs = .error .nonUniformArray := by
  obtain ⟨r, hr, hne⟩ := h
  unfold emitArrayBlock
  rw [if_neg (by
    intro hall
    exact hne (by simpa using (List.all_eq_true.mp hall r hr)))]

/-- C6 -/
theorem stringify_non_uniform {name : String} {elems : List Value}
    {recs : List (List (String × Value))} (hrec : asRecords elems = some recs)
    (h : ∃ r ∈ recs, r.map Prod.fst ≠ (recs.headD []).map Prod.fst) :
    stringify (.obj [(name, .arr elems)]) = .error .nonUniformArray := by
  unfold stringify
  simp only [emitDocL, List.mapM_cons, List.mapM_nil, hrec]
  rw [emitArrayBlock_non_uniform 2 name.data h]
  rfl

theorem stringify_non_uniform_witness :
    stringify (.obj [("items", .arr [.obj [("a", .int 1)],
      .obj [("b", .int 2)]])]) = .error .nonUniformArray :=
  stringify_non_uniform rfl ⟨[("b", .int 2)],
    List.mem_cons.mpr (Or.inr (List.mem_cons_self _ _)), by simp⟩

end Toon

namespace Toon

/-! ## Schema engine (spec §4.5) -/

/-- Modelled from the spec: the field type gate alternatives of §4.5. -/
inductive FieldType where
  | integer : FieldType
  | float : FieldType
  | number : FieldType
  | boolean : FieldType
  | string : FieldType
  | any : FieldType
  deriving Repr, DecidableEq

/-- Modelled from the spec: the reasons a §4.5 check can fail, in the order
the checks run. -/
inductive VReason where
  | nullDisallowed : VReason
  | typeMismatch : VReason
  | belowMin : VReason
  | aboveMax : VReason
  | patternFail : VReason
  | enumFail : VReason
  | customFail : VReason
  deriving Repr, DecidableEq

/-- Modelled from the spec: *ValidationError* carries the field name, the
failing value and the reason (§4.5). -/
structure ValidationError where
  field : String
  value : Value
  reason : VReason

/-- Modelled from the spec: a schema `Field` (§4.5).  The regex `pattern`
is modelled as a full-match predicate on strings, the `enum` set as a
membership predicate, and the custom check as a predicate on values. -/
structure SchemaField where
  name : String
  type : FieldType
  nullable : Bool := false
  min_value : Option ℚ := none
  max_value : Option ℚ := none
  pattern : Option (String → Bool) := none
  enum : Option (Value → Bool) := none
  custom : Value → Bool := fun _ => true

/-- Modelled from the spec: the type gate of §4.5 — `Integer` accepts only
`Int` (booleans are not integers), `Float` only `Float`, `Number` either,
`Boolean` only `Bool` (`Int(0)`/`Int(1)` do not satisfy it), `String` only
`String`, `Any` anything non-null. -/
def typeGate : FieldType → Value → Bool
  | .integer, .int _ => true
  | .integer, _ => false
  | .float, .float _ => true
  | .float, _ => false
  | .number, .int _ => true
  | .number, .float _ => true
  | .number, _ => false
  | .boolean, .bool _ => true
  | .boolean, _ => false
  | .string, .str _ => true
  | .string, _ => false
  | .any, _ => true

/-- The rational value of a float literal (mantissa and dot/exponent
scaling), used for the inclusive numeric bounds of §4.5. -/
def ratOfLit (cs : List Char) : ℚ :=
  let low := cs.map lowerCh
  let me : List Char × Int :=
    match splitOnC 'e' low with
    | [m, e] => (m, parseIntTok (if e.head? = some '+' then e.tail else e))
    | _ => (low, 0)
  let nm : Bool × List Char :=
    match me.1 with
    | '-' :: r => (true, r)
    | m => (false, m)
  let ifp : List Char × List Char :=
    match splitOnC '.' nm.2 with
    | [a, b] => (a, b)
    | _ => (nm.2, [])
  let q : ℚ := (parseNatL (ifp.1 ++ ifp.2) : ℚ) *
    (10 : ℚ) ^ (me.2 - (ifp.2.length : Int))
  if nm.1 then -q else q

/-- The numeric reading of a value, if any (bounds apply only to these). -/
def numQ : Value → Option ℚ
  | .int i => some (i : ℚ)
  | .float lit => some (ratOfLit lit.data)
  | _ => none

def minOK (lo : Option ℚ) (v : Value) : Bool :=
  match lo, numQ v with
  | some l, some q => decide (l ≤ q)
  | _, _ => true

def maxOK (hi : Option ℚ) (v : Value) : Bool :=
  match hi, numQ v with
  | some h, some q => decide (q ≤ h)
  | _, _ => true

def patternOK (p : Option (String → Bool)) : Value → Bool
  | .str s => match p with
    | some f => f s
    | none => true
  | _ => true

def enumOK (e : Option (Value → Bool)) (v : Value) : Bool :=
  match e with
  | some f => f v
  | none => true

def vIsNull : Value → Bool
  | .null => true
  | _ => false

/-- Modelled from the spec: field validation (§4.5) — the six checks in
order: null gate, type gate, lower bound, upper bound, pattern, enum,
custom predicate; the first failure is reported. -/
def validateField (f : SchemaField) (v : Value) : Except ValidationError Unit :=
  if vIsNull v then
    (if f.nullable then .ok () else .error ⟨f.name, v, .nullDisallowed⟩)
  else if !typeGate f.type v then .error ⟨f.name, v, .typeMismatch⟩
  else if !minOK f.min_value v then .error ⟨f.name, v, .belowMin⟩
  else if !maxOK f.max_value v then .error ⟨f.name, v, .aboveMax⟩
  else if !patternOK f.pattern v then .error ⟨f.name, v, .patternFail⟩
  else if !enumOK f.enum v then .error ⟨f.name, v, .enumFail⟩
  else if ! f.custom v then .error ⟨f.name, v, .customFail⟩
  else .ok ()

/-- A field carrying only a name and a type gate (all other checks at
their §4.5 defaults). -/
def fieldOf (n : String) (t : FieldType) : SchemaField :=
  SchemaField.mk n t false none none none none (fun _ => true)

/-- C5 -/
theorem integer_boolean_type_gate (n : String) :
    (∀ lit, validateField (fieldOf n .integer) (.float lit) =
      .error ⟨n, .float lit, .typeMismatch⟩) ∧
    (∀ s, validateField (fieldOf n .integer) (.str s) =
      .error ⟨n, .str s, .typeMismatch⟩) ∧
    (∀ b, validateField (fieldOf n .integer) (.bool b) =
      .error ⟨n, .bool b, .typeMismatch⟩) ∧
    (∀ i, validateField (fieldOf n .integer) (.int i) = .ok ()) ∧
    (validateField (fieldOf n .boolean) (.int 0) =
      .error ⟨n, .int 0, .typeMismatch⟩) ∧
    (validateField (fieldOf n .boolean) (.int 1) =
      .error ⟨n, .int 1, .typeMismatch⟩) ∧
    (∀ b, validateField (fieldOf n .boolean) (.bool b) = .ok ()) :=
  ⟨fun _ => rfl, fun _ => rfl, fun _ => rfl, fun _ => rfl, rfl, rfl, fun _ => rfl⟩

end Toon

namespace Toon

/-! ## Streaming writer (spec §4.6) -/

/-- Modelled from the spec: streaming-writer errors (§4.6, §7). -/
inductive WErr where
  | nestedArray : WErr
  | notInArray : WErr
  | arityError : WErr
  deriving Repr, DecidableEq

/-- Modelled from the spec: the writer state — bytes emitted so far, and
when `InArray` the declared field list with the count of rows written
(`none` is `Idle`). -/
structure WState where
  out : List Char
  cur : Option (List (List Char) × Nat)

/-- Modelled from the spec: `begin_array` (§4.6) — from `Idle` emits the
header with the `?` arity placeholder (the arity is unknown at header
time) and enters `InArray`; from `InArray` it is a *NestedArray* error. -/
def begin_array (name : List Char) (fields : List (List Char)) (st : WState) :
    Except WErr WState :=
  match st.cur with
  | some _ => .error .nestedArray
  | none =>
    .ok ⟨st.out ++ emitHeaderL name ['?'] fields ++ ['\n'], some (fields, 0)⟩

/-- Modelled from the spec: `write_row` (§4.6) — requires `InArray` and as
many cells as declared fields (*ArityError* otherwise); emits one indented
row and counts it. -/
def write_row (vals : List Value) (st : WState) : Except WErr WState :=
  match st.cur with
  | none => .error .notInArray
  | some fn =>
    if vals.length = fn.1.length then
      .ok ⟨st.out ++ emitRowL 2 vals, some (fn.1, fn.2 + 1)⟩
    else .error .arityError

/-- Draining a row sequence through `write_row` (the `write_items` loop of
§4.6 at row level). -/
def write_rows (rs : List (List Value)) (st : WState) : Except WErr WState :=
  match rs with
  | [] => .ok st
  | r :: rest => (write_row r st).bind (write_rows rest)

/-- Modelled from the spec: `end_array` (§4.6) — returns the row count and
returns to `Idle`.  The emitted bytes are left exactly as written (this
model's sink offers no random-access rewrite, so the optional backpatch of
the `?` placeholder never happens; readers must accept `?`). -/
def end_array (st : WState) : Except WErr (Nat × WState) :=
  match st.cur with
  | none => .error .notInArray
  | some fn => .ok (fn.2, ⟨st.out, none⟩)

/-- Modelled from the spec: `write_array` (§4.6) — the convenience form
materializes the record sequence first, so the header carries the numeric
row count; fields are taken from the first record in order. -/
def write_array (name : List Char) (recs : List (List (String × Value)))
    (st : WState) : Except WErr (Nat × WState) :=
  match st.cur with
  | some _ => .error .nestedArray
  | none =>
    .ok (recs.length, ⟨st.out ++
      emitHeaderL name (natToChars recs.length)
        ((recs.headD []).map (fun p => p.1.data)) ++
      '\n' :: (recs.map (fun r => emitRowL 2 (r.map Prod.snd))).flatten, none⟩)

/-- Threading `write_rows` from any `InArray` state: every row of the
right arity is emitted in order and counted. -/
theorem write_rows_spec (rs : List (List Value)) :
    ∀ (fields : List (List Char)) (out : List Char) (n : Nat),
    (∀ r ∈ rs, r.length = fields.length) →
    write_rows rs ⟨out, some (fields, n)⟩ =
      .ok ⟨out ++ (rs.map (emitRowL 2)).flatten, some (fields, n + rs.length)⟩ := by
  induction rs with
  | nil =>
    intro fields out n h
    simp [write_rows]
  | cons r rest ih =>
    intro fields out n h
    show (write_row r ⟨out, some (fields, n)⟩).bind (write_rows rest) = _
    rw [show write_row r ⟨out, some (fields, n)⟩ =
      .ok ⟨out ++ emitRowL 2 r, some (fields, n + 1)⟩ from by
        show (if r.length = fields.length then
          Except.ok (⟨out ++ emitRowL 2 r, some (fields, n + 1)⟩ : WState)
          else Except.error WErr.arityError) = _
        rw [if_pos (h r (by simp))]]
    show write_rows rest ⟨out ++ emitRowL 2 r, some (fields, n + 1)⟩ = _
    rw [ih fields (out ++ emitRowL 2 r) (n + 1) (fun x hx => h x (by simp [hx]))]
    rw [List.append_assoc]
    rw [show n + 1 + rest.length = n + (rest.length + 1) from by omega]
    rfl

/-- One full session `begin_array`, `write_row` repeatedly, `end_array`,
from `Idle`: the header goes out with the `?` placeholder, the rows
follow, and `end_array` reports the row count. -/
theorem stream_session (name : List Char) (fields : List (List Char))
    (rs : List (List Value)) (st : WState) (hidle : st.cur = none)
    (h : ∀ r ∈ rs, r.length = fields.length) :
    (begin_array name fields st >>= fun st1 =>
      write_rows rs st1 >>= end_array) =
      .ok (rs.length, ⟨st.out ++ emitHeaderL name ['?'] fields ++
        '\n' :: (rs.map (emitRowL 2)).flatten, none⟩) := by
  rw [show begin_array name fields st =
    .ok ⟨st.out ++ emitHeaderL name ['?'] fields ++ ['\n'], some (fields, 0)⟩
    from by unfold begin_array; rw [hidle]]
  rw [ok_bind]
  rw [write_rows_spec rs fields _ 0 h]
  rw [ok_bind]
  show Except.ok _ = _
  simp [List.append_assoc]

end Toon

namespace Toon

/-- C8 -/
theorem streaming_arity_modes (name : List Char)
    (recs : List (List (String × Value))) (st : WState)
    (hidle : st.cur = none)
    (huni : ∀ r ∈ recs, r.length = (recs.headD []).length) :
    (begin_array name ((recs.headD []).map (fun p => p.1.data)) st >>= fun st1 =>
      write_rows (recs.map (fun r => r.map Prod.snd)) st1 >>= end_array) =
      .ok (recs.length, ⟨st.out ++
        emitHeaderL name ['?'] ((recs.headD []).map (fun p => p.1.data)) ++
        '\n' :: ((recs.map (fun r => r.map Prod.snd)).map (emitRowL 2)).flatten,
        none⟩) ∧
    write_array name recs st =
      .ok (recs.length, ⟨st.out ++
        emitHeaderL name (natToChars recs.length)
          ((recs.headD []).map (fun p => p.1.data)) ++
        '\n' :: (recs.map (fun r => emitRowL 2 (r.map Prod.snd))).flatten,
        none⟩) := by
  constructor
  · rw [stream_session name ((recs.headD []).map (fun p => p.1.data))
      (recs.map (fun r => r.map Prod.snd)) st hidle (fun r hr => by
        obtain ⟨x, hx, rfl⟩ := List.mem_map.mp hr
        simp [huni x hx])]
    simp
  · unfold write_array
    rw [hidle]

theorem streaming_arity_modes_witness :
    ((begin_array "users".data ["id".data, "name".data, "active".data]
        ⟨[], none⟩ >>= fun st1 =>
      write_rows [[Value.int 1, Value.str "Alice", Value.bool true],
        [Value.int 2, Value.str "Bob", Value.bool false]] st1 >>= end_array) =
      .ok (2,
        ⟨"users[?]\x7bid,name,active\x7d:\n  1,Alice,true\n  2,Bob,false\n".data,
        none⟩)) ∧
    (write_array "users".data
      [[("id", Value.int 1), ("name", Value.str "Alice"),
        ("active", Value.bool true)],
       [("id", Value.int 2), ("name", Value.str "Bob"),
        ("active", Value.bool false)]]
      ⟨[], none⟩ =
      .ok (2,
        ⟨"users[2]\x7bid,name,active\x7d:\n  1,Alice,true\n  2,Bob,false\n".data,
        none⟩)) := by
  have h := streaming_arity_modes "users".data
    [[("id", Value.int 1), ("name", Value.str "Alice"),
      ("active", Value.bool true)],
     [("id", Value.int 2), ("name", Value.str "Bob"),
      ("active", Value.bool false)]]
    ⟨[], none⟩ rfl (by decide)
  exact ⟨h.1, h.2⟩

/-- C9 -/
theorem end_array_keeps_placeholder (name : List Char)
    (fields : List (List Char)) (rs : List (List Value)) (st : WState)
    (hidle : st.cur = none) (h : ∀ r ∈ rs, r.length = fields.length) :
    ∃ stF : WState,
      (begin_array name fields st >>= fun st1 =>
        write_rows rs st1 >>= end_array) = .ok (rs.length, stF) ∧
      stF.out = st.out ++ emitHeaderL name ['?'] fields ++
        '\n' :: (rs.map (emitRowL 2)).flatten ∧ stF.cur = none :=
  ⟨_, stream_session name fields rs st hidle h, rfl, rfl⟩

theorem end_array_keeps_placeholder_witness :
    ∃ stF : WState,
      (begin_array "test".data ["value".data] ⟨[], none⟩ >>= fun st1 =>
        write_rows [[Value.int 0], [Value.int 1], [Value.int 2]] st1 >>=
          end_array) = .ok (3, stF) ∧
      stF.out = "test[?]\x7bvalue\x7d:\n  0\n  1\n  2\n".data ∧
      stF.cur = none := by
  obtain ⟨stF, h1, h2, h3⟩ := end_array_keeps_placeholder "test".data
    ["value".data] [[Value.int 0], [Value.int 1], [Value.int 2]] ⟨[], none⟩ rfl
    (by decide)
  exact ⟨stF, h1, by rw [h2]; rfl, h3⟩

end Toon

namespace Toon

/-! ## Flatten / unflatten (spec §4.2) -/

/-- Modelled from the spec: the *FlattenConflict* error of §7, raised by
`unflatten` when one path's interior node would have to be both a leaf and
an `Object`. -/
inductive UErr where
  | flattenConflict : UErr
  deriving Repr, DecidableEq

mutual
/-- Modelled from the spec: the flatten traversal (§4.2) relative to one
position, producing `(relative segment path, leaf)` pairs.  An `Object`
within the depth limit is descended; an `Object` at the limit, and every
non-`Object` (arrays included — flatten does not descend into arrays), is
an opaque leaf with the empty relative path.  `d = none` is the unbounded
default. -/
def flatSegV (d : Option Nat) : Value → List (List (List Char) × Value)
  | .obj es =>
    match d with
    | some 0 => [([], .obj es)]
    | some (dd + 1) => flatSegE (some dd) es
    | none => flatSegE none es
  | v => [([], v)]

/-- The flatten traversal over an entry list: each entry's key is prefixed
to the relative paths of its value's leaves, in entry order. -/
def flatSegE (d : Option Nat) : List (String × Value) → List (List (List Char) × Value)
  | [] => []
  | (k, v) :: rest =>
    (flatSegV d v).map (fun p => (k.data :: p.1, p.2)) ++ flatSegE d rest
end

/-- Modelled from the spec: `flatten_object(o, s, depth_limit)` (§4.2) —
the flat mapping whose keys are the separator-joined paths to every leaf,
in depth-first entry order.  The separator is modelled as one character
(the default `.`). -/
def flatten_object (s : Char) (d : Option Nat) (es : List (String × Value)) :
    List (String × Value) :=
  (flatSegE d es).map (fun p => (String.mk (intercalateC [s] p.1), p.2))

/-- The nested single-branch chain `unflatten` builds for a fresh path. -/
def buildChain : List (List Char) → Value → Value
  | [], v => v
  | k :: ks, v => .obj [(String.mk k, buildChain ks v)]

/-- Locate a key in an entry list: the entries before it, its value, and
the entries after it. -/
def splitAtKey (k : List Char) : List (String × Value) →
    Option (List (String × Value) × Value × List (String × Value))
  | [] => none
  | (k2, v2) :: es =>
    if k2.data = k then some ([], v2, es)
    else (splitAtKey k es).map (fun t => ((k2, v2) :: t.1, t.2.1, t.2.2))

/-- Modelled from the spec: one path insertion of `unflatten` (§4.2) — walk
the split path, creating intermediate `Object`s as needed; a prefix that
lands on an existing non-`Object` (or a full path landing on an `Object`)
is a *FlattenConflict*. -/
def insertP (v : Value) (k : List Char) : List (List Char) →
    List (String × Value) → Except UErr (List (String × Value))
  | [], acc =>
    match splitAtKey k acc with
    | none => .ok (acc ++ [(String.mk k, v)])
    | some (_, .obj _, _) => .error .flattenConflict
    | some (pre, _, post) => .ok (pre ++ (String.mk k, v) :: post)
  | k2 :: ks2, acc =>
    match splitAtKey k acc with
    | none => .ok (acc ++ [(String.mk k, buildChain (k2 :: ks2) v)])
    | some (pre, .obj sub, post) =>
      (insertP v k2 ks2 sub).map
        (fun sub2 => pre ++ (String.mk k, .obj sub2) :: post)
    | some _ => .error .flattenConflict

/-- Sequential insertion of already-split `(segment path, leaf)` pairs. -/
def insertAllSeg : List (List (List Char) × Value) → List (String × Value) →
    Except UErr (List (String × Value))
  | [], acc => .ok acc
  | (segs, v) :: rest, acc =>
    match segs with
    | [] => .error .flattenConflict
    | k :: ks =>
      match insertP v k ks acc with
      | .ok acc2 => insertAllSeg rest acc2
      | .error e => .error e

/-- Modelled from the spec: `unflatten(flat, s)` (§4.2) — split each key on
the separator and insert the leaf at that path, in order. -/
def unflattenGo (s : Char) : List (String × Value) → List (String × Value) →
    Except UErr (List (String × Value))
  | [], acc => .ok acc
  | (key, v) :: rest, acc =>
    match splitOnC s key.data with
    | [] => .error .flattenConflict
    | k :: ks =>
      match insertP v k ks acc with
      | .ok acc2 => unflattenGo s rest acc2
      | .error e => .error e

/-- Modelled from the spec: `unflatten_object(flat, s)` (§4.2). -/
def unflatten_object (s : Char) (flat : List (String × Value)) :
    Except UErr (List (String × Value)) :=
  unflattenGo s flat []

mutual
/-- The well-formedness under which flatten round-trips (spec §8, flatten
identity, sharpened): no array anywhere, nested objects non-empty with
pairwise-distinct keys, and no separator character in any key. -/
def wfNV (s : Char) : Value → Bool
  | .obj es => !es.isEmpty && decide ((es.map Prod.fst).Nodup) && wfNE s es
  | .arr _ => false
  | _ => true

/-- `wfNV` over an entry list: every key separator-free, every value
well-formed. -/
def wfNE (s : Char) : List (String × Value) → Bool
  | [] => true
  | (k, v) :: rest => k.data.all (fun c => !(c = s)) && wfNV s v && wfNE s rest
end

/-- Top-level well-formedness: distinct keys and `wfNE` (the top object
itself may be empty). -/
def wfNested (s : Char) (es : List (String × Value)) : Bool :=
  decide ((es.map Prod.fst).Nodup) && wfNE s es

mutual
/-- The hypotheses of the spec's flatten identity as literally stated: no
separator in any key and no array leaves (nothing about empty nested
objects). -/
def noArrSepV (s : Char) : Value → Bool
  | .obj es => noArrSepE s es
  | .arr _ => false
  | _ => true

/-- `noArrSepV` over an entry list. -/
def noArrSepE (s : Char) : List (String × Value) → Bool
  | [] => true
  | (k, v) :: rest => k.data.all (fun c => !(c = s)) && noArrSepV s v && noArrSepE s rest
end

end Toon

namespace Toon

theorem splitAtKey_none {k : List Char} {acc : List (String × Value)}
    (h : ∀ e ∈ acc, e.1.data ≠ k) : splitAtKey k acc = none := by
  induction acc with
  | nil => rfl
  | cons e es ih =>
    obtain ⟨k2, v2⟩ := e
    show (if k2.data = k then some ([], v2, es) else
      (splitAtKey k es).map (fun t => ((k2, v2) :: t.1, t.2.1, t.2.2))) = none
    rw [if_neg (h (k2, v2) (by simp)), ih (fun x hx => h x (by simp [hx]))]
    rfl

theorem splitAtKey_found {k : List Char} (pre : List (String × Value))
    (key : String) (x : Value) (post : List (String × Value))
    (hk : key.data = k) (hpre : ∀ e ∈ pre, e.1.data ≠ k) :
    splitAtKey k (pre ++ (key, x) :: post) = some (pre, x, post) := by
  induction pre with
  | nil =>
    show (if key.data = k then some ([], x, post) else _) = _
    rw [if_pos hk]
  | cons e es ih =>
    obtain ⟨k2, v2⟩ := e
    show (if k2.data = k then some ([], v2, es ++ (key, x) :: post) else
      (splitAtKey k (es ++ (key, x) :: post)).map
        (fun t => ((k2, v2) :: t.1, t.2.1, t.2.2))) = _
    rw [if_neg (hpre (k2, v2) (by simp)), ih (fun y hy => hpre y (by simp [hy]))]
    rfl

/-- Inserting a path whose first segment is fresh appends the whole chain. -/
theorem insertP_new {k : List Char} {acc : List (String × Value)}
    (v : Value) (ks : List (List Char))
    (h : ∀ e ∈ acc, e.1.data ≠ k) :
    insertP v k ks acc = .ok (acc ++ [(String.mk k, buildChain ks v)]) := by
  rcases ks with _ | ⟨k2, ks2⟩
  · show (match splitAtKey k acc with
      | none => Except.ok (acc ++ [(String.mk k, v)])
      | some (_, Value.obj _, _) => Except.error UErr.flattenConflict
      | some (pre, _, post) =>
        Except.ok (pre ++ (String.mk k, v) :: post)) = _
    rw [splitAtKey_none h]
    rfl
  · show (match splitAtKey k acc with
      | none => Except.ok (acc ++ [(String.mk k, buildChain (k2 :: ks2) v)])
      | some (pre, Value.obj sub, post) =>
        (insertP v k2 ks2 sub).map
          (fun sub2 => pre ++ (String.mk k, Value.obj sub2) :: post)
      | some _ => Except.error UErr.flattenConflict) = _
    rw [splitAtKey_none h]

/-- Inserting below an existing object entry rewrites just that entry. -/
theorem insertP_descend {k : List Char} {pre post sub : List (String × Value)}
    (key : String) (v : Value) (k2 : List Char) (ks2 : List (List Char))
    (hk : key.data = k) (hpre : ∀ e ∈ pre, e.1.data ≠ k) :
    insertP v k (k2 :: ks2) (pre ++ (key, .obj sub) :: post) =
      (insertP v k2 ks2 sub).map
        (fun sub2 => pre ++ (key, .obj sub2) :: post) := by
  subst hk
  show (match splitAtKey key.data (pre ++ (key, Value.obj sub) :: post) with
    | none => Except.ok ((pre ++ (key, Value.obj sub) :: post) ++
        [(String.mk key.data, buildChain (k2 :: ks2) v)])
    | some (pre2, Value.obj sub2, post2) =>
      (insertP v k2 ks2 sub2).map
        (fun sub3 => pre2 ++ (String.mk key.data, Value.obj sub3) :: post2)
    | some _ => Except.error UErr.flattenConflict) = _
  rw [splitAtKey_found pre key (.obj sub) post rfl hpre]

theorem insertAllSeg_append (a b : List (List (List Char) × Value)) :
    ∀ acc, insertAllSeg (a ++ b) acc =
      (insertAllSeg a acc).bind (fun acc2 => insertAllSeg b acc2) := by
  induction a with
  | nil => intro acc; rfl
  | cons p rest ih =>
    intro acc
    obtain ⟨segs, v⟩ := p
    rcases segs with _ | ⟨k, ks⟩
    · rfl
    · show (match insertP v k ks acc with
        | .ok acc2 => insertAllSeg (rest ++ b) acc2
        | .error e => .error e) = (match insertP v k ks acc with
        | .ok acc2 => insertAllSeg rest acc2
        | .error e => .error e).bind (fun acc2 => insertAllSeg b acc2)
      rcases h2 : insertP v k ks acc with e | acc2
      · rfl
      · exact ih acc2

end Toon

namespace Toon

theorem buildChain_append (xs : List (List Char)) (k : List Char) (v : Value) :
    buildChain (xs ++ [k]) v = buildChain xs (.obj [(String.mk k, v)]) := by
  induction xs with
  | nil => rfl
  | cons x rest ih =>
    show Value.obj [(String.mk x, buildChain (rest ++ [k]) v)] = _
    rw [ih]
    rfl

/-- Every flattened path starts with the entry's own key: none is empty. -/
theorem flatSegE_ne_nil {d : Option Nat} :
    ∀ {es : List (String × Value)}, ∀ p ∈ flatSegE d es, p.1 ≠ [] := by
  intro es
  induction es with
  | nil => intro p hp; simp [flatSegE] at hp
  | cons e rest ih =>
    intro p hp
    obtain ⟨k, v⟩ := e
    rw [show flatSegE d ((k, v) :: rest) =
      (flatSegV d v).map (fun q => (k.data :: q.1, q.2)) ++ flatSegE d rest
      from rfl] at hp
    rcases List.mem_append.mp hp with h | h
    · obtain ⟨q, hq, rfl⟩ := List.mem_map.mp h
      simp
    · exact ih p h

/-- Insertions of paths below a common fresh head all land inside that
entry, leaving the surroundings untouched. -/
theorem insertAllSeg_under {k : List Char} (key : String) (hk : key.data = k) :
    ∀ (paths : List (List (List Char) × Value)),
    (∀ p ∈ paths, p.1 ≠ []) →
    ∀ (pre post sub : List (String × Value)),
    (∀ e ∈ pre, e.1.data ≠ k) →
    insertAllSeg (paths.map (fun p => (k :: p.1, p.2)))
        (pre ++ (key, .obj sub) :: post) =
      (insertAllSeg paths sub).map
        (fun sub2 => pre ++ (key, .obj sub2) :: post) := by
  intro paths
  induction paths with
  | nil => intro _ pre post sub hpre; rfl
  | cons p rest ih =>
    intro hne pre post sub hpre
    obtain ⟨segs, v⟩ := p
    rcases hsegs : segs with _ | ⟨s1, srest⟩
    · exact absurd hsegs (hne (segs, v) (by simp))
    · subst hsegs
      show (match insertP v k (s1 :: srest) (pre ++ (key, .obj sub) :: post) with
        | .ok acc2 => insertAllSeg
            (rest.map (fun (q : List (List Char) × Value) => (k :: q.1, q.2))) acc2
        | .error e => .error e) = _
      rw [insertP_descend key v s1 srest hk hpre]
      rw [show insertAllSeg ((s1 :: srest, v) :: rest) sub =
        (match insertP v s1 srest sub with
          | .ok acc2 => insertAllSeg rest acc2
          | .error e => .error e) from rfl]
      rcases h2 : insertP v s1 srest sub with e | sub2
      · rfl
      · show insertAllSeg (rest.map (fun q => (k :: q.1, q.2)))
          (pre ++ (key, .obj sub2) :: post) = _
        exact ih (fun q hq => hne q (by simp [hq])) pre post sub2 hpre

end Toon

namespace Toon

/-- Iterated version of the previous lemma: insertions below a common
fresh spine rewrite just the object at the end of the spine. -/
theorem insertAllSeg_spine :
    ∀ (tail : List (List Char)) (paths : List (List (List Char) × Value)),
    (∀ p ∈ paths, p.1 ≠ []) →
    ∀ (head : List Char) (pre post built : List (String × Value)),
    (∀ e ∈ pre, e.1.data ≠ head) →
    insertAllSeg (paths.map (fun p => ((head :: tail) ++ p.1, p.2)))
        (pre ++ (String.mk head, buildChain tail (.obj built)) :: post) =
      (insertAllSeg paths built).map
        (fun built2 =>
          pre ++ (String.mk head, buildChain tail (.obj built2)) :: post) := by
  intro tail
  induction tail with
  | nil =>
    intro paths hne head pre post built hpre
    exact insertAllSeg_under (String.mk head) rfl paths hne pre post built hpre
  | cons t1 trest ih =>
    intro paths hne head pre post built hpre
    rw [show (fun (p : List (List Char) × Value) =>
        ((head :: t1 :: trest) ++ p.1, p.2)) =
      (fun (q : List (List Char) × Value) => (head :: q.1, q.2)) ∘
        (fun (p : List (List Char) × Value) => ((t1 :: trest) ++ p.1, p.2))
      from rfl]
    rw [← List.map_map]
    rw [show buildChain (t1 :: trest) (Value.obj built) =
      .obj [(String.mk t1, buildChain trest (.obj built))] from rfl]
    rw [insertAllSeg_under (String.mk head) rfl
      (paths.map (fun p => ((t1 :: trest) ++ p.1, p.2)))
      (fun q hq => by
        obtain ⟨p, hp, rfl⟩ := List.mem_map.mp hq
        simp)
      pre post [(String.mk t1, buildChain trest (.obj built))] hpre]
    have hih := ih paths hne t1 [] [] built (by simp)
    simp only [List.nil_append] at hih
    rw [hih]
    rcases h2 : insertAllSeg paths built with e | b2 <;> rfl

end Toon

namespace Toon

theorem wfNV_obj {s : Char} {es : List (String × Value)}
    (h : wfNV s (.obj es) = true) :
    es ≠ [] ∧ (es.map Prod.fst).Nodup ∧ wfNE s es = true := by
  have h2 : (!es.isEmpty && decide ((es.map Prod.fst).Nodup) &&
      wfNE s es) = true := h
  rw [Bool.and_eq_true, Bool.and_eq_true] at h2
  refine ⟨?_, by simpa using h2.1.2, h2.2⟩
  intro he
  rw [he] at h2
  simp at h2

theorem wfNE_cons {s : Char} {k : String} {v : Value}
    {rest : List (String × Value)} (h : wfNE s ((k, v) :: rest) = true) :
    (∀ c ∈ k.data, c ≠ s) ∧ wfNV s v = true ∧ wfNE s rest = true := by
  have h2 : (k.data.all (fun c => !(c = s)) && wfNV s v && wfNE s rest) = true := h
  rw [Bool.and_eq_true, Bool.and_eq_true] at h2
  refine ⟨fun c hc => ?_, h2.1.2, h2.2⟩
  have := List.all_eq_true.mp h2.1.1 c hc
  simpa using this

theorem insertAllSeg_single (v : Value) (head : List Char)
    (tail : List (List Char)) (acc : List (String × Value))
    (hacc : ∀ e ∈ acc, e.1.data ≠ head) :
    insertAllSeg [(head :: tail, v)] acc =
      .ok (acc ++ [(String.mk head, buildChain tail v)]) := by
  show (match insertP v head tail acc with
    | .ok acc2 => insertAllSeg [] acc2
    | .error e => .error e) = _
  rw [insertP_new v tail hacc]
  rfl

theorem cons_append_cons {α : Type} (h : α) (t : List α) (a : α) (r : List α) :
    (h :: t) ++ (a :: r) = (h :: (t ++ [a])) ++ r := by
  simp

end Toon

namespace Toon

theorem insert_leaf_block (v : Value) (hleaf : flatSegV none v = [([], v)])
    (head : List Char) (tail : List (List Char)) (acc : List (String × Value))
    (hacc : ∀ e ∈ acc, e.1.data ≠ head) :
    insertAllSeg ((flatSegV none v).map
        (fun p => ((head :: tail) ++ p.1, p.2))) acc =
      .ok (acc ++ [(String.mk head, buildChain tail v)]) := by
  rw [hleaf]
  rw [show ([(([] : List (List Char)), v)].map
      (fun p => ((head :: tail) ++ p.1, p.2))) =
    [((head :: tail) ++ [], v)] from rfl]
  rw [List.append_nil]
  exact insertAllSeg_single v head tail acc hacc

/-- The heart of the flatten round trip: inserting the flattened block of
a well-formed value below a fresh spine appends exactly that value, and
inserting the flattened entries of a well-formed entry list into a
disjoint object appends exactly those entries. -/
theorem unflatten_inserts (s : Char) : ∀ n : Nat,
    (∀ v : Value, v.nodes ≤ n → wfNV s v = true →
      ∀ (head : List Char) (tail : List (List Char))
        (acc : List (String × Value)),
      (∀ e ∈ acc, e.1.data ≠ head) →
      insertAllSeg ((flatSegV none v).map
          (fun p => ((head :: tail) ++ p.1, p.2))) acc =
        .ok (acc ++ [(String.mk head, buildChain tail v)])) ∧
    (∀ es : List (String × Value), nodesObj es ≤ n → wfNE s es = true →
      (es.map Prod.fst).Nodup →
      ∀ built : List (String × Value),
      (∀ e ∈ es, ∀ b ∈ built, b.1.data ≠ e.1.data) →
      insertAllSeg (flatSegE none es) built = .ok (built ++ es)) := by
  intro n
  induction n using Nat.strong_induction_on with
  | _ n ih =>
  have hG : ∀ v : Value, v.nodes ≤ n → wfNV s v = true →
      ∀ (head : List Char) (tail : List (List Char))
        (acc : List (String × Value)),
      (∀ e ∈ acc, e.1.data ≠ head) →
      insertAllSeg ((flatSegV none v).map
          (fun p => ((head :: tail) ++ p.1, p.2))) acc =
        .ok (acc ++ [(String.mk head, buildChain tail v)]) := by
    intro v hn hwf head tail acc hacc
    cases v with
    | null => exact insert_leaf_block Value.null rfl head tail acc hacc
    | bool b => exact insert_leaf_block (Value.bool b) rfl head tail acc hacc
    | int i => exact insert_leaf_block (Value.int i) rfl head tail acc hacc
    | float lit => exact insert_leaf_block (Value.float lit) rfl head tail acc hacc
    | str st => exact insert_leaf_block (Value.str st) rfl head tail acc hacc
    | arr elems => exact absurd hwf (by simp [wfNV])
    | obj es =>
      obtain ⟨hne0, hnd, hwfe⟩ := wfNV_obj hwf
      rcases es with _ | ⟨e2, rest⟩
      · exact absurd rfl hne0
      obtain ⟨k2, v2⟩ := e2
      have hm : nodesObj ((k2, v2) :: rest) < n := by
        have : (Value.obj ((k2, v2) :: rest)).nodes =
          1 + nodesObj ((k2, v2) :: rest) := rfl
        omega
      have ihm := ih (nodesObj ((k2, v2) :: rest)) hm
      have hv2n : v2.nodes ≤ nodesObj ((k2, v2) :: rest) :=
        nodesObj_mem_le (p := (k2, v2)) (by simp)
      have hrestn : nodesObj rest ≤ nodesObj ((k2, v2) :: rest) := by
        have : nodesObj ((k2, v2) :: rest) = v2.nodes + nodesObj rest := rfl
        have := nodes_pos v2
        omega
      obtain ⟨hk2free, hwfv2, hwfrest⟩ := wfNE_cons hwfe
      rw [show flatSegV none (Value.obj ((k2, v2) :: rest)) =
        (flatSegV none v2).map (fun p => (k2.data :: p.1, p.2)) ++
          flatSegE none rest from rfl]
      rw [List.map_append, insertAllSeg_append]
      rw [List.map_map]
      rw [show ((fun (p : List (List Char) × Value) =>
          ((head :: tail) ++ p.1, p.2)) ∘
          (fun (p : List (List Char) × Value) => (k2.data :: p.1, p.2))) =
        (fun (p : List (List Char) × Value) =>
          ((head :: (tail ++ [k2.data])) ++ p.1, p.2)) from
        funext (fun p => by
          show ((head :: tail) ++ (k2.data :: p.1), p.2) =
            ((head :: (tail ++ [k2.data])) ++ p.1, p.2)
          rw [cons_append_cons])]
      rw [ihm.1 v2 hv2n hwfv2 head (tail ++ [k2.data]) acc hacc]
      show insertAllSeg ((flatSegE none rest).map
        (fun p => ((head :: tail) ++ p.1, p.2)))
        (acc ++ [(String.mk head, buildChain (tail ++ [k2.data]) v2)]) = _
      rw [buildChain_append tail k2.data v2]
      rw [show (String.mk k2.data) = k2 from rfl]
      rw [insertAllSeg_spine tail (flatSegE none rest)
        (fun p hp => flatSegE_ne_nil p hp) head acc []
        [(k2, v2)] hacc]
      rw [ihm.2 rest hrestn hwfrest (by
          have := hnd
          simp only [List.map_cons] at this
          exact this.of_cons)
        [(k2, v2)] (fun e he b hb => by
          simp only [List.mem_singleton] at hb
          subst hb
          intro hdata
          have hk2e : k2 = e.1 := congrArg String.mk hdata
          have : k2 ∈ rest.map Prod.fst := by
            rw [hk2e]
            exact List.mem_map.mpr ⟨e, he, rfl⟩
          simp only [List.map_cons] at hnd
          exact (List.nodup_cons.mp hnd).1 this)]
      rfl
  refine ⟨hG, ?_⟩
  intro es hn hwfe hnd built hdisj
  rcases es with _ | ⟨e2, rest⟩
  · show insertAllSeg [] built = Except.ok (built ++ [])
    rw [List.append_nil]
    rfl
  obtain ⟨k2, v2⟩ := e2
  obtain ⟨hk2free, hwfv2, hwfrest⟩ := wfNE_cons hwfe
  have hv2n : v2.nodes ≤ n :=
    le_trans (nodesObj_mem_le (p := (k2, v2)) (by simp)) hn
  have hrestn : nodesObj rest < n := by
    have h1 : nodesObj ((k2, v2) :: rest) = v2.nodes + nodesObj rest := rfl
    have h2 := nodes_pos v2
    omega
  rw [show flatSegE none ((k2, v2) :: rest) =
    (flatSegV none v2).map (fun p => (k2.data :: p.1, p.2)) ++
      flatSegE none rest from rfl]
  rw [insertAllSeg_append]
  rw [show (fun (p : List (List Char) × Value) => (k2.data :: p.1, p.2)) =
    (fun (p : List (List Char) × Value) =>
      ((k2.data :: ([] : List (List Char))) ++ p.1, p.2)) from rfl]
  rw [hG v2 hv2n hwfv2 k2.data [] built (fun e he => by
    intro hdata
    exact hdisj (k2, v2) (by simp) e he hdata)]
  show insertAllSeg (flatSegE none rest)
    (built ++ [(String.mk k2.data, buildChain [] v2)]) = _
  rw [show (String.mk k2.data) = k2 from rfl]
  rw [show buildChain [] v2 = v2 from rfl]
  rw [(ih (nodesObj rest) hrestn).2 rest le_rfl hwfrest (by
      simp only [List.map_cons] at hnd
      exact hnd.of_cons)
    (built ++ [(k2, v2)]) (fun e he b hb => by
      rcases List.mem_append.mp hb with h | h
      · exact hdisj e (by simp [he]) b h
      · simp only [List.mem_singleton] at h
        subst h
        intro hdata
        have hk2e : k2 = e.1 := congrArg String.mk hdata
        have : k2 ∈ rest.map Prod.fst := by
          rw [hk2e]
          exact List.mem_map.mpr ⟨e, he, rfl⟩
        simp only [List.map_cons] at hnd
        exact (List.nodup_cons.mp hnd).1 this)]
  simp

end Toon

namespace Toon

/-- Under well-formedness no flattened path segment contains the
separator. -/
theorem flatSeg_free (s : Char) : ∀ n : Nat,
    (∀ v : Value, v.nodes ≤ n → wfNV s v = true →
      ∀ p ∈ flatSegV none v, ∀ seg ∈ p.1, ∀ c ∈ seg, c ≠ s) ∧
    (∀ es : List (String × Value), nodesObj es ≤ n → wfNE s es = true →
      ∀ p ∈ flatSegE none es, ∀ seg ∈ p.1, ∀ c ∈ seg, c ≠ s) := by
  intro n
  induction n using Nat.strong_induction_on with
  | _ n ih =>
  have hG : ∀ v : Value, v.nodes ≤ n → wfNV s v = true →
      ∀ p ∈ flatSegV none v, ∀ seg ∈ p.1, ∀ c ∈ seg, c ≠ s := by
    intro v hn hwf p hp seg hseg c hc
    cases v with
    | null => simp [flatSegV] at hp; rw [hp] at hseg; simp at hseg
    | bool b => simp [flatSegV] at hp; rw [hp] at hseg; simp at hseg
    | int i => simp [flatSegV] at hp; rw [hp] at hseg; simp at hseg
    | float lit => simp [flatSegV] at hp; rw [hp] at hseg; simp at hseg
    | str st => simp [flatSegV] at hp; rw [hp] at hseg; simp at hseg
    | arr elems => exact absurd hwf (by simp [wfNV])
    | obj es =>
      obtain ⟨hne0, hnd, hwfe⟩ := wfNV_obj hwf
      have hm : nodesObj es < n := by
        have : (Value.obj es).nodes = 1 + nodesObj es := rfl
        omega
      exact (ih (nodesObj es) hm).2 es le_rfl hwfe p hp seg hseg c hc
  refine ⟨hG, ?_⟩
  intro es hn hwfe p hp seg hseg c hc
  rcases es with _ | ⟨⟨k2, v2⟩, rest⟩
  · rw [show flatSegE none ([] : List (String × Value)) = [] from rfl] at hp
    simp at hp
  obtain ⟨hk2free, hwfv2, hwfrest⟩ := wfNE_cons hwfe
  rw [show flatSegE none ((k2, v2) :: rest) =
    (flatSegV none v2).map (fun q => (k2.data :: q.1, q.2)) ++
      flatSegE none rest from rfl] at hp
  rcases List.mem_append.mp hp with h | h
  · obtain ⟨q, hq, rfl⟩ := List.mem_map.mp h
    rcases List.mem_cons.mp hseg with h2 | h2
    · subst h2
      exact hk2free c hc
    · have hv2n : v2.nodes ≤ n :=
        le_trans (nodesObj_mem_le (p := (k2, v2)) (by simp)) hn
      exact hG v2 hv2n hwfv2 q hq seg h2 c hc
  · have hrestn : nodesObj rest < n := by
      have h1 : nodesObj ((k2, v2) :: rest) = v2.nodes + nodesObj rest := rfl
      have h2 := nodes_pos v2
      omega
    exact (ih (nodesObj rest) hrestn).2 rest le_rfl hwfrest p h seg hseg c hc

/-- Splitting the joined keys recovers the segment insertions. -/
theorem unflattenGo_join (s : Char) :
    ∀ (flat : List (List (List Char) × Value)),
    (∀ p ∈ flat, p.1 ≠ []) →
    (∀ p ∈ flat, ∀ seg ∈ p.1, ∀ c ∈ seg, c ≠ s) →
    ∀ acc, unflattenGo s (flat.map
        (fun p => (String.mk (intercalateC [s] p.1), p.2))) acc =
      insertAllSeg flat acc := by
  intro flat
  induction flat with
  | nil => intro _ _ acc; rfl
  | cons p rest ih =>
    intro hne hfree acc
    obtain ⟨segs, v⟩ := p
    rcases hsegs : segs with _ | ⟨k, ks⟩
    · exact absurd hsegs (hne (segs, v) (by simp))
    · subst hsegs
      show (match splitOnC s (String.mk (intercalateC [s] (k :: ks))).data with
        | [] => Except.error UErr.flattenConflict
        | k2 :: ks2 =>
          match insertP v k2 ks2 acc with
          | .ok acc2 => unflattenGo s (rest.map
              (fun (q : List (List Char) × Value) =>
                (String.mk (intercalateC [s] q.1), q.2))) acc2
          | .error e => .error e) = _
      rw [show (String.mk (intercalateC [s] (k :: ks))).data =
        intercalateC [s] (k :: ks) from rfl]
      rw [splitOnC_intercalate s (k :: ks) (by simp)
        (fun l hl x hx => hfree (k :: ks, v) (by simp) l hl x hx)]
      show (match insertP v k ks acc with
        | .ok acc2 => unflattenGo s (rest.map
            (fun (q : List (List Char) × Value) =>
              (String.mk (intercalateC [s] q.1), q.2))) acc2
        | .error e => .error e) = _
      rw [show insertAllSeg ((k :: ks, v) :: rest) acc =
        (match insertP v k ks acc with
          | .ok acc2 => insertAllSeg rest acc2
          | .error e => .error e) from rfl]
      rcases h2 : insertP v k ks acc with e | acc2
      · rfl
      · exact ih (fun q hq => hne q (by simp [hq]))
          (fun q hq => hfree q (by simp [hq])) acc2

/-- C2 -/
theorem flatten_unflatten_round_trip {s : Char} {es : List (String × Value)}
    (h : wfNested s es = true) :
    unflatten_object s (flatten_object s none es) = .ok es := by
  have h2 : (decide ((es.map Prod.fst).Nodup) && wfNE s es) = true := h
  rw [Bool.and_eq_true] at h2
  have hnd : (es.map Prod.fst).Nodup := by simpa using h2.1
  have hwfe : wfNE s es = true := h2.2
  show unflattenGo s ((flatSegE none es).map
    (fun p => (String.mk (intercalateC [s] p.1), p.2))) [] = _
  rw [unflattenGo_join s (flatSegE none es)
    (fun p hp => flatSegE_ne_nil p hp)
    (fun p hp => (flatSeg_free s (nodesObj es)).2 es le_rfl hwfe p hp) []]
  rw [(unflatten_inserts s (nodesObj es)).2 es le_rfl hwfe hnd [] (by simp)]
  rfl

theorem flatten_unflatten_witness :
    wfNested '.' [("id", .int 1),
      ("address", .obj [("city", .str "NYC"), ("zip", .str "10001")])] = true ∧
    unflatten_object '.' (flatten_object '.' none [("id", .int 1),
      ("address", .obj [("city", .str "NYC"), ("zip", .str "10001")])]) =
      .ok [("id", .int 1),
        ("address", .obj [("city", .str "NYC"), ("zip", .str "10001")])] :=
  ⟨rfl, @flatten_unflatten_round_trip '.' [("id", .int 1),
    ("address", .obj [("city", .str "NYC"), ("zip", .str "10001")])] rfl⟩

theorem flatten_unflatten_cex :
    noArrSepV '.' (.obj [("a", .obj [])]) = true ∧
    flatten_object '.' none [("a", .obj [])] = [] ∧
    unflatten_object '.' (flatten_object '.' none [("a", .obj [])]) ≠
      .ok [("a", .obj [])] :=
  ⟨rfl, rfl, by
    rw [show unflatten_object '.' (flatten_object '.' none [("a", .obj [])]) =
      .ok [] from rfl]
    simp⟩

end Toon

namespace Toon

/-! ## Advanced mode and the streaming reader (spec §4.6, design notes) -/

/-- Errors of the advanced (unflattening) entry points: a parse error or a
flatten conflict. -/
inductive AdvErr where
  | parseErr : PErr → AdvErr
  | conflict : AdvErr
  deriving Repr, DecidableEq

/-- Unflatten one parsed element: records (objects) are unflattened with
the default separator, other values pass through. -/
def advVal : Value → Except UErr Value
  | .obj r => (unflatten_object '.' r).map .obj
  | v => .ok v

/-- Unflatten the elements of a top-level array entry. -/
def advEntry : String × Value → Except UErr (String × Value)
  | (n, .arr elems) => (elems.mapM advVal).map (fun es => (n, .arr es))
  | (n, v) => .ok (n, v)

/-- Modelled from the spec (design notes): the unflatten pass gated by the
`advanced` flag, applied to every record of every top-level array. -/
def advDoc : Value → Except UErr Value
  | .obj entries => (entries.mapM advEntry).map .obj
  | v => .ok v

/-- Modelled from the spec: `parse_advanced` — `parse`, then the unflatten
pass (design notes: one parser with a flatten/unflatten pass gated by the
`advanced` flag). -/
def parse_advanced (t : String) : Except AdvErr Value :=
  match parse t with
  | .error e => .error (.parseErr e)
  | .ok v =>
    match advDoc v with
    | .ok v2 => .ok v2
    | .error _ => .error .conflict

/-- Modelled from the spec: the streaming reader `stream_parse` (§4.6) —
yields `(array_name, record_sequence)` pairs block by block; nested
object support unflattens each record as it is read. -/
def stream_parse (t : String) : Except AdvErr (List (String × Value)) :=
  match parseBlocksF ((linesOf t.data).length + 1) 2 (linesOf t.data) with
  | .error e => .error (.parseErr e)
  | .ok blocks =>
    match blocks.mapM (fun b =>
      (b.2.mapM (fun r => (unflatten_object '.' r).map Value.obj)).map
        (fun rs => (b.1, Value.arr rs))) with
    | .ok pairs => .ok pairs
    | .error _ => .error .conflict

end Toon

namespace Toon

theorem parseScalarTok_ne_obj (cs : List Char) (es : List (String × Value)) :
    parseScalarTok cs ≠ .ok (.obj es) := by
  unfold parseScalarTok
  split_ifs <;> try simp
  rcases unquoteBody cs.tail with _ | b <;> simp

theorem bind_eq_ok {ε α β : Type} {x : Except ε α} {f : α → Except ε β}
    {b : β} (h : (x >>= f) = .ok b) : ∃ a, x = .ok a ∧ f a = .ok b := by
  rcases x with e | a
  · exact absurd h (by simp [Bind.bind, Except.bind])
  · exact ⟨a, rfl, h⟩

theorem mapM_map_except {α β γ ε : Type} (g : α → β) (f : β → Except ε γ) :
    ∀ l : List α, (l.map g).mapM f = l.mapM (fun x => f (g x)) := by
  intro l
  induction l with
  | nil => rfl
  | cons a r ih => simp only [List.map_cons, List.mapM_cons, ih]

end Toon

namespace Toon

/-- C3 -/
theorem stream_parse_eq_parse_advanced (t : String)
    {entries : List (String × Value)}
    (h : parse_advanced t = .ok (.obj entries)) :
    stream_parse t = .ok entries := by
  unfold parse_advanced at h
  rcases hp : parse t with e | v
  · rw [hp] at h
    simp at h
  rw [hp] at h
  have h4 : (match advDoc v with
    | Except.ok v2 => (Except.ok v2 : Except AdvErr Value)
    | Except.error _ => Except.error AdvErr.conflict) = .ok (.obj entries) := h
  rcases ha : advDoc v with e2 | v2
  · rw [ha] at h4
    simp at h4
  rw [ha] at h4
  have hv2 : v2 = .obj entries := by simpa using h4
  subst hv2
  cases v with
  | null =>
    have h2 : Except.ok Value.null =
      (.ok (.obj entries) : Except UErr Value) := ha
    simp at h2
  | bool b =>
    have h2 : Except.ok (Value.bool b) =
      (.ok (.obj entries) : Except UErr Value) := ha
    simp at h2
  | int i =>
    have h2 : Except.ok (Value.int i) =
      (.ok (.obj entries) : Except UErr Value) := ha
    simp at h2
  | float lit =>
    have h2 : Except.ok (Value.float lit) =
      (.ok (.obj entries) : Except UErr Value) := ha
    simp at h2
  | str st =>
    have h2 : Except.ok (Value.str st) =
      (.ok (.obj entries) : Except UErr Value) := ha
    simp at h2
  | arr elems =>
    have h2 : Except.ok (Value.arr elems) =
      (.ok (.obj entries) : Except UErr Value) := ha
    simp at h2
  | obj entries0 =>
    have ha2 : (entries0.mapM advEntry).map Value.obj = .ok (.obj entries) := ha
    rcases hm : entries0.mapM advEntry with e3 | es2
    · rw [hm] at ha2
      simp [Except.map] at ha2
    rw [hm] at ha2
    have hes2 : es2 = entries := by
      have h3 : Except.ok (Value.obj es2) =
        (.ok (.obj entries) : Except UErr Value) := ha2
      simpa using h3
    subst hes2
    have hp2 : parseDocL t.data = .ok (.obj entries0) := hp
    unfold parseDocL at hp2
    split_ifs at hp2 with h1 h2
    · simp at hp2
    · exact absurd hp2 (parseScalarTok_ne_obj _ _)
    · unfold parseBlocksTop at hp2
      obtain ⟨blocks, hb, hrest⟩ := bind_eq_ok hp2
      have hrest2 : (if (blocks.map Prod.fst).Nodup then
          Except.ok (Value.obj (blocks.map
            (fun b => (b.1, Value.arr (b.2.map Value.obj)))))
          else .error PErr.duplicateArrayName) = .ok (.obj entries0) := hrest
      split_ifs at hrest2 with hnd
      · have he0 : entries0 = blocks.map
            (fun b => (b.1, Value.arr (b.2.map Value.obj))) := by
          have := hrest2
          simp at this
          exact this.symm
        unfold stream_parse
        rw [hb]
        have hm2 : blocks.mapM (fun b =>
            (b.2.mapM (fun r => (unflatten_object '.' r).map Value.obj)).map
              (fun rs => (b.1, Value.arr rs))) = .ok es2 := by
          rw [he0] at hm
          rw [mapM_map_except (fun b => (b.1, Value.arr (b.2.map Value.obj)))
            advEntry blocks] at hm
          rw [show (fun (b : String × List (List (String × Value))) =>
              advEntry (b.1, Value.arr (b.2.map Value.obj))) =
            (fun (b : String × List (List (String × Value))) =>
              (b.2.mapM (fun r => (unflatten_object '.' r).map Value.obj)).map
                (fun rs => (b.1, Value.arr rs))) from funext (fun b => by
              show ((b.2.map Value.obj).mapM advVal).map
                (fun es => (b.1, Value.arr es)) = _
              rw [mapM_map_except Value.obj advVal b.2]
              rfl)] at hm
          exact hm
        show (match blocks.mapM (fun b =>
            (b.2.mapM (fun r => (unflatten_object '.' r).map Value.obj)).map
              (fun rs => (b.1, Value.arr rs))) with
          | Except.ok pairs =>
            (Except.ok pairs : Except AdvErr (List (String × Value)))
          | Except.error _ => Except.error AdvErr.conflict) = Except.ok es2
        rw [hm2]

theorem stream_parse_advanced_witness :
    parse_advanced "users[1]\x7bid,address.city\x7d:\n  1,NYC\n" =
      .ok (.obj [("users", .arr [.obj [("id", .int 1),
        ("address", .obj [("city", .str "NYC")])]])]) ∧
    stream_parse "users[1]\x7bid,address.city\x7d:\n  1,NYC\n" =
      .ok [("users", .arr [.obj [("id", .int 1),
        ("address", .obj [("city", .str "NYC")])]])] :=
  ⟨rfl, stream_parse_eq_parse_advanced
    "users[1]\x7bid,address.city\x7d:\n  1,NYC\n" rfl⟩

theorem stream_parse_vs_parse_cex :
    parse "users[1]\x7bid,address.city\x7d:\n  1,NYC\n" =
      .ok (.obj [("users", .arr [.obj [("id", .int 1),
        ("address.city", .str "NYC")]])]) ∧
    stream_parse "users[1]\x7bid,address.city\x7d:\n  1,NYC\n" =
      .ok [("users", .arr [.obj [("id", .int 1),
        ("address", .obj [("city", .str "NYC")])]])] ∧
    Value.obj [("users", .arr [.obj [("id", .int 1),
        ("address", .obj [("city", .str "NYC")])]])] ≠
      Value.obj [("users", .arr [.obj [("id", .int 1),
        ("address.city", .str "NYC")]])] :=
  ⟨rfl, rfl, by simp⟩

end Toon

namespace Toon

theorem linesOf_append_nl (cs : List Char) :
    linesOf (cs ++ ['\n']) = linesOf cs ++ [[]] := by
  unfold linesOf
  rw [splitOnC_append_sep, List.map_append]
  rfl

theorem nbLines_append_nl (cs : List Char) :
    nbLines (cs ++ ['\n']) = nbLines cs := by
  unfold nbLines
  rw [linesOf_append_nl, List.filter_append]
  rw [show List.filter (fun l => !isBlankL l) [[]] = ([] : List (List Char))
    from by decide]
  simp

theorem span_append_empty {p : List Char → Bool} (hp : p [] = false)
    (l : List (List Char)) :
    (l ++ [[]]).span p = ((l.span p).1, (l.span p).2 ++ [[]]) := by
  induction l with
  | nil =>
    rw [List.nil_append, List.span_eq_take_drop, List.span_eq_take_drop]
    rw [List.takeWhile_cons_of_neg (by rw [hp]; exact Bool.false_ne_true),
      List.dropWhile_cons_of_neg (by rw [hp]; exact Bool.false_ne_true)]
    rfl
  | cons x xs ih =>
    rw [List.cons_append, List.span_eq_take_drop, List.span_eq_take_drop]
    by_cases hx : p x = true
    · rw [List.takeWhile_cons_of_pos hx, List.dropWhile_cons_of_pos hx,
        List.takeWhile_cons_of_pos hx, List.dropWhile_cons_of_pos hx]
      rw [List.span_eq_take_drop, List.span_eq_take_drop] at ih
      have ih1 := congrArg Prod.fst ih
      have ih2 := congrArg Prod.snd ih
      simp only [] at ih1 ih2
      rw [ih1, ih2]
    · have hx2 : p x = false := by simpa using hx
      rw [List.takeWhile_cons_of_neg (by rw [hx2]; exact Bool.false_ne_true),
        List.dropWhile_cons_of_neg (by rw [hx2]; exact Bool.false_ne_true),
        List.takeWhile_cons_of_neg (by rw [hx2]; exact Bool.false_ne_true),
        List.dropWhile_cons_of_neg (by rw [hx2]; exact Bool.false_ne_true)]
      rfl

end Toon

namespace Toon

theorem parseBlockAt_append_empty (i : Nat) (l : List Char)
    (rest : List (List Char)) :
    parseBlockAt i l (rest ++ [[]]) =
      (parseBlockAt i l rest).map (fun br => (br.1, br.2 ++ [[]])) := by
  have hspan := span_append_empty
    (p := fun x => x.head?.getD 'x' = ' ') rfl rest
  have hspan1 : ((rest ++ [[]]).span (fun (x : List Char) => x.head?.getD 'x' = ' ')).1 =
      (rest.span (fun (x : List Char) => x.head?.getD 'x' = ' ')).1 := by rw [hspan]
  have hspan2 : ((rest ++ [[]]).span (fun (x : List Char) => x.head?.getD 'x' = ' ')).2 =
      (rest.span (fun (x : List Char) => x.head?.getD 'x' = ' ')).2 ++ [[]] := by rw [hspan]
  unfold parseBlockAt
  rcases hh : parseHeaderL l with e | ⟨name, arity, fieldCs⟩
  · rfl
  · simp only [ok_bind]
    simp only [hspan1, hspan2]
    rcases arity with _ | n
    · rcases hpr : parseBlockRows i (fieldCs.map String.mk)
        (rest.span (fun (x : List Char) => x.head?.getD 'x' = ' ')).1 with e2 | recs <;> rfl
    · show (if (rest.span (fun (x : List Char) =>
            x.head?.getD 'x' = ' ')).1.length = n then
          Except.map (fun recs => ((String.mk name, recs),
            (rest.span (fun (x : List Char) => x.head?.getD 'x' = ' ')).2 ++ [[]]))
            (parseBlockRows i (fieldCs.map String.mk)
              (rest.span (fun (x : List Char) => x.head?.getD 'x' = ' ')).1)
        else Except.error PErr.rowCountMismatch) =
        Except.map (fun br => (br.1, br.2 ++ [[]]))
          (if (rest.span (fun (x : List Char) =>
              x.head?.getD 'x' = ' ')).1.length = n then
            Except.map (fun recs => ((String.mk name, recs),
              (rest.span (fun (x : List Char) => x.head?.getD 'x' = ' ')).2))
              (parseBlockRows i (fieldCs.map String.mk)
                (rest.span (fun (x : List Char) => x.head?.getD 'x' = ' ')).1)
          else Except.error PErr.rowCountMismatch)
      by_cases hc : (rest.span (fun (x : List Char) =>
          x.head?.getD 'x' = ' ')).1.length = n
      · rw [if_pos hc, if_pos hc]
        rcases hpr : parseBlockRows i (fieldCs.map String.mk)
          (rest.span (fun (x : List Char) => x.head?.getD 'x' = ' ')).1
          with e2 | recs <;> rfl
      · rw [if_neg hc, if_neg hc]
        rfl

end Toon

namespace Toon

theorem span_snd_length_le {p : List Char → Bool} (l : List (List Char)) :
    (l.span p).2.length ≤ l.length := by
  rw [List.span_eq_take_drop]
  exact (List.dropWhile_sublist _).length_le

theorem parseBlockAt_ok_rest {i : Nat} {l : List Char}
    {rest : List (List Char)}
    {br : (String × List (List (String × Value))) × List (List Char)}
    (h : parseBlockAt i l rest = .ok br) :
    br.2 = (rest.span (fun (x : List Char) => x.head?.getD 'x' = ' ')).2 := by
  unfold parseBlockAt at h
  rcases hh : parseHeaderL l with e | ⟨name, arity, fieldCs⟩
  · rw [hh] at h
    exact absurd h (by simp [Bind.bind, Except.bind])
  · rw [hh] at h
    rcases arity with _ | n
    · have h2 : Except.map (fun recs => ((String.mk name, recs),
          (rest.span (fun (x : List Char) => x.head?.getD 'x' = ' ')).2))
          (parseBlockRows i (fieldCs.map String.mk)
            (rest.span (fun (x : List Char) => x.head?.getD 'x' = ' ')).1) =
          .ok br := h
      rcases hpr : parseBlockRows i (fieldCs.map String.mk)
        (rest.span (fun (x : List Char) => x.head?.getD 'x' = ' ')).1
        with e2 | recs
      · rw [hpr] at h2
        simp [Except.map] at h2
      · rw [hpr] at h2
        have h4 : ((String.mk name, recs),
            (rest.span (fun (x : List Char) => x.head?.getD 'x' = ' ')).2) =
            br := by simpa [Except.map] using h2
        rw [← h4]
    · by_cases hc : (rest.span (fun (x : List Char) =>
          x.head?.getD 'x' = ' ')).1.length = n
      · have h2 : Except.map (fun recs => ((String.mk name, recs),
            (rest.span (fun (x : List Char) => x.head?.getD 'x' = ' ')).2))
            (parseBlockRows i (fieldCs.map String.mk)
              (rest.span (fun (x : List Char) => x.head?.getD 'x' = ' ')).1) =
            .ok br := by
          have h3 : (if (rest.span (fun (x : List Char) =>
              x.head?.getD 'x' = ' ')).1.length = n then
              Except.map (fun recs => ((String.mk name, recs),
                (rest.span (fun (x : List Char) =>
                  x.head?.getD 'x' = ' ')).2))
                (parseBlockRows i (fieldCs.map String.mk)
                  (rest.span (fun (x : List Char) =>
                    x.head?.getD 'x' = ' ')).1)
            else Except.error PErr.rowCountMismatch) = .ok br := h
          rw [if_pos hc] at h3
          exact h3
        rcases hpr : parseBlockRows i (fieldCs.map String.mk)
          (rest.span (fun (x : List Char) => x.head?.getD 'x' = ' ')).1
          with e2 | recs
        · rw [hpr] at h2
          simp [Except.map] at h2
        · rw [hpr] at h2
          have h4 : ((String.mk name, recs),
              (rest.span (fun (x : List Char) => x.head?.getD 'x' = ' ')).2) =
              br := by simpa [Except.map] using h2
          rw [← h4]
      · have h3 : (if (rest.span (fun (x : List Char) =>
            x.head?.getD 'x' = ' ')).1.length = n then
            Except.map (fun recs => ((String.mk name, recs),
              (rest.span (fun (x : List Char) => x.head?.getD 'x' = ' ')).2))
              (parseBlockRows i (fieldCs.map String.mk)
                (rest.span (fun (x : List Char) =>
                  x.head?.getD 'x' = ' ')).1)
          else Except.error PErr.rowCountMismatch) = .ok br := h
        rw [if_neg hc] at h3
        simp at h3

end Toon

namespace Toon

/-- Block scanning ignores one trailing empty line and any sufficient
fuel. -/
theorem parseBlocksF_stable : ∀ n : Nat, ∀ (ls : List (List Char))
    (f1 f2 i : Nat), ls.length ≤ n → ls.length < f1 → ls.length < f2 →
    parseBlocksF f1 i (ls ++ [[]]) = parseBlocksF f2 i ls := by
  intro n
  induction n using Nat.strong_induction_on with
  | _ n ih =>
  intro ls f1 f2 i hn h1 h2
  rcases ls with _ | ⟨l, rest⟩
  · rcases f1 with _ | f1'
    · omega
    · rw [show parseBlocksF (f1' + 1) i ([] ++ [[]]) =
        (if isBlankL [] then parseBlocksF f1' i []
         else do
           let (blk, rest2) ← parseBlockAt i [] []
           let tail ← parseBlocksF f1' i rest2
           .ok (blk :: tail)) from rfl]
      rw [if_pos (by decide)]
      rw [show parseBlocksF f1' i [] =
        .ok ([] : List (String × List (List (String × Value)))) from by
          cases f1' <;> rfl]
      rw [show parseBlocksF f2 i [] =
        .ok ([] : List (String × List (List (String × Value)))) from by
          cases f2 <;> rfl]
  · rcases f1 with _ | f1'
    · omega
    rcases f2 with _ | f2'
    · omega
    rw [List.cons_append]
    rw [show parseBlocksF (f1' + 1) i (l :: (rest ++ [[]])) =
      (if isBlankL l then parseBlocksF f1' i (rest ++ [[]])
       else do
         let (blk, rest2) ← parseBlockAt i l (rest ++ [[]])
         let tail ← parseBlocksF f1' i rest2
         .ok (blk :: tail)) from rfl]
    rw [show parseBlocksF (f2' + 1) i (l :: rest) =
      (if isBlankL l then parseBlocksF f2' i rest
       else do
         let (blk, rest2) ← parseBlockAt i l rest
         let tail ← parseBlocksF f2' i rest2
         .ok (blk :: tail)) from rfl]
    by_cases hbl : isBlankL l = true
    · rw [if_pos hbl, if_pos hbl]
      have hlen : l :: rest ≠ [] := by simp
      exact ih rest.length (by simp at hn ⊢; omega) rest f1' f2' i le_rfl
        (by simp at h1; omega) (by simp at h2; omega)
    · rw [if_neg hbl, if_neg hbl]
      rw [parseBlockAt_append_empty i l rest]
      rcases hba : parseBlockAt i l rest with e | br
      · rfl
      · have hr := parseBlockAt_ok_rest hba
        have hblen : br.2.length ≤ rest.length := by
          rw [hr]
          exact span_snd_length_le rest
        show (do
          let tail ← parseBlocksF f1' i (br.2 ++ [[]])
          (Except.ok (br.1 :: tail) :
            Except PErr (List (String × List (List (String × Value)))))) =
          (do
          let tail ← parseBlocksF f2' i br.2
          Except.ok (br.1 :: tail))
        rw [ih br.2.length (by simp at hn; omega) br.2 f1' f2' i le_rfl
          (by simp at h1; omega) (by simp at h2; omega)]

end Toon

namespace Toon

theorem parseBlocksTop_append_empty (ls : List (List Char)) :
    parseBlocksTop (ls ++ [[]]) = parseBlocksTop ls := by
  unfold parseBlocksTop
  rw [show (ls ++ ([[]] : List (List Char))).length = ls.length + 1
    from by simp]
  rw [parseBlocksF_stable ls.length ls (ls.length + 1 + 1) (ls.length + 1) 2
    le_rfl (by omega) (by omega)]

theorem parseDocL_append_nl (cs : List Char) :
    parseDocL (cs ++ ['\n']) = parseDocL cs := by
  unfold parseDocL
  rw [nbLines_append_nl, linesOf_append_nl, parseBlocksTop_append_empty]

/-- C10 -/
theorem parse_trailing_newline (s : String) : parse (s ++ "\n") = parse s := by
  show parseDocL (s ++ "\n").data = parseDocL s.data
  rw [String.data_append]
  exact parseDocL_append_nl s.data

end Toon
